import Mathlib

set_option maxHeartbeats 1000000

namespace Midway

/-!
Shallow embedding of `src/find_meetingpoint.py`: the GTFS feed model,
walk-edge ingest, the uniform spatial grid, per-person priority frontiers
and the global interleaved meeting search.

Modelling conventions:
* machine integers and Python ints are `ℤ`; counters are `ℕ`;
* a pandas `NaN` cell is `Option.none`;
* the floating-point geometry (`haversine_m`, `cell_for`, and the
  cell-neighbourhood half-widths computed in `nearby_stops_within_radius`)
  is abstracted into `Feed` fields `dist`, `cellOf`, `nlatOf`, `nlonOf`
  valued in exact `ℚ`/`ℤ`; all comparisons and the ceiling in walk-time
  computation are taken exactly over `ℚ`;
* the `heapq` heaps are lists whose pop removes the least element under the
  full lexicographic entry key, exactly as `heapq` exposes `pq[0]`;
* console printing and the progress marks are pure I/O and are dropped;
* a ghost field `GState.log` records every entry ever pushed, in push
  order, so that claims about "every action enqueued" are statable.
-/

/-- Numeric value of a digit-char list (caller guarantees all digits). -/
def digitsVal (l : List Char) : ℤ :=
  ((l.foldl (fun a c => a * 10 + (c.toNat - 48)) (0 : ℕ) : ℕ) : ℤ)

/-- Strip leading and trailing whitespace (Python `str.strip()`). -/
def trimChars (l : List Char) : List Char :=
  ((l.dropWhile Char.isWhitespace).reverse.dropWhile Char.isWhitespace).reverse

/-- Split a char list at every colon. -/
def splitCols : List Char → List (List Char)
| [] => [[]]
| c :: cs =>
  let r := splitCols cs
  if c == ':' then [] :: r
  else
    match r with
    | [] => [[c]]
    | g :: gs => (c :: g) :: gs

/-- Models `to_seconds`: strip, match `^(\d+):(\d{2}):(\d{2})$`, return
`h*3600 + m*60 + s`; `none` when the shape does not match.  The `NaN`
guard of the Python code is handled by callers via `Option.bind`. -/
def toSeconds (s : String) : Option ℤ :=
  match splitCols (trimChars s.data) with
  | [h, m, s2] =>
    if 0 < h.length && h.all Char.isDigit
        && m.length == 2 && m.all Char.isDigit
        && s2.length == 2 && s2.all Char.isDigit then
      some (digitsVal h * 3600 + digitsVal m * 60 + digitsVal s2)
    else none
  | _ => none

/-- One row of `stop_times.txt` after CSV load; time cells may be `NaN`. -/
structure StopTimeRow where
  trip_id : String
  stop_id : String
  stop_sequence : ℤ
  arrival_time : Option String
  departure_time : Option String
deriving DecidableEq

/-- Models the `dep_sec` column (line 83). -/
def depSec (r : StopTimeRow) : Option ℤ := r.departure_time.bind toSeconds

/-- Models the `arr_sec` column (line 84). -/
def arrSec (r : StopTimeRow) : Option ℤ := r.arrival_time.bind toSeconds

/-- One row of `pathways.txt`; `from`/`to` cells modelled as strings with
`""` for a missing value (Python truthiness test `if fr and to`). -/
structure PathwayRow where
  from_stop_id : String
  to_stop_id : String
  traversal_time : Option ℤ
deriving DecidableEq

/-- One row of `transfers.txt`. -/
structure TransferRow where
  from_stop_id : String
  to_stop_id : String
  min_transfer_time : Option ℤ
deriving DecidableEq

/-- Walk-edge provenance tag, the `"PATHWAYS" | "TRANSFERS" | "GEO"` strings. -/
inductive WSrc
| pathways
| transfers
| geo
deriving DecidableEq

/-- A directed walk edge as stored in `walk_edges`. -/
structure WalkEdge where
  fromStop : String
  toStop : String
  dur : ℤ
  src : WSrc
deriving DecidableEq

/-- The ingested feed.  `platforms` is the `stop_id` column of `stops.txt`
in file order; `cellOf`, `dist`, `nlatOf`, `nlonOf` abstract the
floating-point geometry of `cell_for`, `haversine_m` and the half-width
computation of `nearby_stops_within_radius`. -/
structure Feed where
  stopTimes : List StopTimeRow
  pathways : List PathwayRow
  pathwaysHasCol : Bool
  transfers : List TransferRow
  platforms : List String
  cellOf : String → ℤ × ℤ
  dist : String → String → ℚ
  nlatOf : String → ℚ → ℕ
  nlonOf : String → ℚ → ℕ

/-- Models the walk-edge ingest loops (lines 99–116): both the edge list
and the `provided_pairs` set, built in one pass over pathways (guarded by
the `traversal_time` column check) and then transfers. -/
def ingestWalks (fd : Feed) : List WalkEdge × List (String × String) :=
  let s1 := (if fd.pathwaysHasCol then fd.pathways else []).foldl
    (fun (acc : List WalkEdge × List (String × String)) r =>
      match r.traversal_time with
      | some tt =>
        if r.from_stop_id != "" && r.to_stop_id != "" then
          (acc.1 ++ [⟨r.from_stop_id, r.to_stop_id, max 30 tt, .pathways⟩],
           acc.2 ++ [(r.from_stop_id, r.to_stop_id)])
        else acc
      | none => acc)
    ([], [])
  fd.transfers.foldl
    (fun (acc : List WalkEdge × List (String × String)) r =>
      match r.min_transfer_time with
      | some tt =>
        if r.from_stop_id != "" && r.to_stop_id != "" then
          (acc.1 ++ [⟨r.from_stop_id, r.to_stop_id, max 30 tt, .transfers⟩],
           acc.2 ++ [(r.from_stop_id, r.to_stop_id)])
        else acc
      | none => acc)
    s1

def walkEdgesAll (fd : Feed) : List WalkEdge := (ingestWalks fd).1

def providedPairs (fd : Feed) : List (String × String) := (ingestWalks fd).2

/-- The `walk_edges[cur_stop]` adjacency list (a `defaultdict` keyed by the
origin; per-origin insertion order is the global build order restricted). -/
def walkEdgesFrom (fd : Feed) (s : String) : List WalkEdge :=
  (walkEdgesAll fd).filter (fun we => we.fromStop == s)

/-- Platforms bucketed into one grid cell (the `grid` defaultdict, built
in `stops.txt` order). -/
def gridAt (fd : Feed) (c : ℤ × ℤ) : List String :=
  fd.platforms.filter (fun s => fd.cellOf s == c)

/-- The offsets `-n, …, n` of a cell-neighbourhood scan. -/
def offsets (n : ℕ) : List ℤ :=
  (List.range (2 * n + 1)).map (fun k => (k : ℤ) - (n : ℤ))

/-- Models `nearby_stops_within_radius` (lines 129–145): iterate the cell
neighbourhood, deduplicate via `seen`, skip the query stop, and yield
every remaining candidate with its haversine distance.  Note the radius
is used only for the half-widths; no distance filter is applied here. -/
def nearbyFull (fd : Feed) (stop : String) (radius : ℚ) :
    List String × List (String × ℚ) :=
  let c0 := fd.cellOf stop
  let cells := (offsets (fd.nlatOf stop radius)).flatMap
    (fun di => (offsets (fd.nlonOf stop radius)).map (fun dj => (c0.1 + di, c0.2 + dj)))
  cells.foldl
    (fun (acc : List String × List (String × ℚ)) cell =>
      (gridAt fd cell).foldl
        (fun (acc2 : List String × List (String × ℚ)) cand =>
          if acc2.1.contains cand || cand == stop then acc2
          else (cand :: acc2.1, acc2.2 ++ [(cand, fd.dist stop cand)]))
        acc)
    ([], [])

def nearby (fd : Feed) (stop : String) (radius : ℚ) : List (String × ℚ) :=
  (nearbyFull fd stop radius).2

/-- Invariant of the `nearby` accumulator `(seen, out)`: the emitted
candidates are the reversed `seen` set, deduplicated, never the query
stop, and each carries its true distance. -/
def nearbyInv (fd : Feed) (stop : String)
    (acc : List String × List (String × ℚ)) : Prop :=
  acc.2.map Prod.fst = acc.1.reverse ∧ acc.1.Nodup ∧ stop ∉ acc.1 ∧
    ∀ cd ∈ acc.2, cd.2 = fd.dist stop cd.1

/-- Action payload carried by a frontier entry (the Python `info` dict;
the `owner` field always equals the owning person's label and is dropped,
and the `route_id`/`headsign` ride metadata is display-only). -/
inductive Act
| start (toStop : String) (dep arr : ℤ)
| walk (src : WSrc) (fromStop toStop : String) (walkSec dep arr : ℤ) (distM : Option ℤ)
| ride (fromStop toStop tripId : String) (waitSec rideSec dep arr : ℤ)
deriving DecidableEq

def Act.toStop : Act → String
| .start s _ _ => s
| .walk _ _ t _ _ _ _ => t
| .ride _ t _ _ _ _ _ => t

def Act.arriveSec : Act → ℤ
| .start _ _ a => a
| .walk _ _ _ _ _ a _ => a
| .ride _ _ _ _ _ _ a => a

def Act.isStart : Act → Bool
| .start _ _ _ => true
| _ => false

/-- A heap entry `(accum, arr, dest, counter, info)` as pushed by
`heappush_entry`. -/
structure Entry where
  accum : ℤ
  arr : ℤ
  dest : String
  ctr : ℕ
  info : Act
deriving DecidableEq

/-- Strict lexicographic comparison of char lists by code point, the
order Python uses on `str`. -/
def charsLtB : List Char → List Char → Bool
| [], [] => false
| [], _ :: _ => true
| _ :: _, [] => false
| a :: as, b :: bs => a.toNat < b.toNat || (a.toNat == b.toNat && charsLtB as bs)

/-- Python string comparison. -/
def strLtB (s t : String) : Bool := charsLtB s.data t.data

/-- The comparison 4-tuple of an entry; with globally unique counters the
payload in the fifth position never participates in a comparison. -/
def key4 (e : Entry) : ℤ × ℤ × String × ℕ := (e.accum, e.arr, e.dest, e.ctr)

/-- Strict lexicographic order on entry keys, exactly the tuple order the
Python heap and `min` use (payload untouched: counters are unique). -/
def keyLtB (e f : Entry) : Bool :=
  e.accum < f.accum || (e.accum == f.accum &&
    (e.arr < f.arr || (e.arr == f.arr &&
      (strLtB e.dest f.dest || (e.dest == f.dest && e.ctr < f.ctr)))))

/-- Least entry of a list under the full key order, first-minimal wins
(models the `heapq` heap minimum `pq[0]`). -/
def findMin (l : List Entry) : Option Entry :=
  l.foldl (fun acc e =>
    match acc with
    | none => some e
    | some b => if keyLtB e b then some e else some b) none

/-- Per-person search state. -/
structure Person where
  label : String
  startStop : String
  pq : List Entry
  visited : List String
  reached : List (String × ℤ × ℤ)
  parent : List (String × Act)
deriving DecidableEq

/-- Startup-time configuration constants. -/
structure Config where
  t0 : ℤ
  walkSpeed : ℚ
  maxWalkTimeS : ℤ
  maxTripTimeS : ℤ
  people : List (String × String)

/-- `MAX_WALK_RADIUS_M = WALK_SPEED_MPS * MAX_WALK_TIME_S`. -/
def maxWalkRadius (cfg : Config) : ℚ := cfg.walkSpeed * (cfg.maxWalkTimeS : ℚ)

/-- A push about to happen: an entry minus its (not yet assigned) counter. -/
structure PushSpec where
  accum : ℤ
  arr : ℤ
  dest : String
  info : Act
deriving DecidableEq

/-- The global search state: persons, the global insertion counter, and
the ghost log of every pushed entry. -/
structure GState where
  persons : List Person
  ctr : ℕ
  log : List Entry
deriving DecidableEq

/-- Pathway/transfer walk pushes out of `cur` (lines 157–163). -/
def walkSpecs (fd : Feed) (cur : String) (t accum : ℤ) : List PushSpec :=
  (walkEdgesFrom fd cur).map (fun we =>
    ⟨accum + we.dur, t + we.dur, we.toStop,
      .walk we.src cur we.toStop we.dur t (t + we.dur) none⟩)

/-- Models Python `int(round(x))`; half-to-even at exact ties is modelled
as half-up (the value is display metadata only). -/
def roundQ (q : ℚ) : ℤ := Int.floor (q + 1 / 2)

/-- Geodesic walk duration `max(30, ceil(dist_m / WALK_SPEED_MPS))`. -/
def geoDur (cfg : Config) (d : ℚ) : ℤ := max 30 (Int.ceil (d / cfg.walkSpeed))

/-- Geodesic walk pushes out of `cur` (lines 165–177): radius filter,
explicit-pair suppression, walk-time cap. -/
def geoSpecs (fd : Feed) (cfg : Config) (cur : String) (t accum : ℤ) : List PushSpec :=
  (nearby fd cur (maxWalkRadius cfg)).filterMap (fun cd =>
    if maxWalkRadius cfg < cd.2 then none
    else if (providedPairs fd).contains (cur, cd.1) then none
    else if geoDur cfg cd.2 ≤ cfg.maxWalkTimeS then
      some ⟨accum + geoDur cfg cd.2, t + geoDur cfg cd.2, cd.1,
        .walk .geo cur cd.1 (geoDur cfg cd.2) t (t + geoDur cfg cd.2)
          (some (roundQ cd.2))⟩
    else none)

/-- Stable insertion into a `lt`-sorted list (equal keys keep insertion
order, modelling the sorted pandas frames). -/
def insSorted (lt : α → α → Bool) (x : α) : List α → List α
| [] => [x]
| y :: ys => if lt x y then x :: y :: ys else y :: insSorted lt x ys

/-- Stable sort by a strict Boolean comparison. -/
def sortByLt (lt : α → α → Bool) (l : List α) : List α :=
  l.foldl (fun acc x => insSorted lt x acc) []

/-- Ascending `dep_sec` with `NaN` last (the `rows_at_stop` sort order). -/
def ltDep (r1 r2 : StopTimeRow) : Bool :=
  match depSec r1, depSec r2 with
  | some a, some b => a < b
  | some _, none => true
  | none, _ => false

/-- Ascending `stop_sequence` (the `(trip_id, stop_sequence)` sort). -/
def ltSeq (r1 r2 : StopTimeRow) : Bool := r1.stop_sequence < r2.stop_sequence

/-- The `rows_at_stop[sid]` frame: rows at one stop, sorted by `dep_sec`. -/
def rowsAtStop (fd : Feed) (s : String) : List StopTimeRow :=
  sortByLt ltDep (fd.stopTimes.filter (fun r => r.stop_id == s))

/-- The `trip_groups.get_group(trip_id)` frame, sorted by `stop_sequence`. -/
def tripRows (fd : Feed) (tid : String) : List StopTimeRow :=
  sortByLt ltSeq (fd.stopTimes.filter (fun r => r.trip_id == tid))

/-- Ride pushes out of `cur` (lines 179–204): board any row departing at
or after `t`, alight at any later-sequence row with a parseable arrival. -/
def rideSpecs (fd : Feed) (cur : String) (t accum : ℤ) : List PushSpec :=
  ((rowsAtStop fd cur).filter (fun r =>
      match depSec r with
      | some d => decide (t ≤ d)
      | none => false)).flatMap (fun r1 =>
    match depSec r1 with
    | none => []
    | some dep =>
      ((tripRows fd r1.trip_id).filter
          (fun r2 => decide (r1.stop_sequence < r2.stop_sequence))).filterMap
        (fun r2 =>
          match arrSec r2 with
          | none => none
          | some arr =>
            some ⟨accum + ((dep - t) + (arr - dep)), arr, r2.stop_id,
              .ride cur r2.stop_id r1.trip_id (dep - t) (arr - dep) dep arr⟩))

/-- All pushes performed when expanding a settled stop, in program order
(lines 326–328): pathway/transfer walks, geodesic walks, rides. -/
def expandSpecs (fd : Feed) (cfg : Config) (cur : String) (t accum : ℤ) : List PushSpec :=
  walkSpecs fd cur t accum ++ geoSpecs fd cfg cur t accum ++ rideSpecs fd cur t accum

def mkEntry (c : ℕ) (s : PushSpec) : Entry := ⟨s.accum, s.arr, s.dest, c, s.info⟩

/-- Models repeated `heappush_entry`: each push first increments the global
counter, then pushes; the ghost log records the same entry. -/
def pushAll (pq : List Entry) (ctr : ℕ) (log : List Entry) :
    List PushSpec → List Entry × ℕ × List Entry
| [] => (pq, ctr, log)
| s :: rest =>
  pushAll (pq ++ [mkEntry (ctr + 1) s]) (ctr + 1) (log ++ [mkEntry (ctr + 1) s]) rest

/-- The entries `pushAll` creates from `specs` when the counter starts at
`c` (specification device for `pushAll`). -/
def mkEntries (c : ℕ) : List PushSpec → List Entry
| [] => []
| s :: rest => mkEntry (c + 1) s :: mkEntries (c + 1) rest

/-- Person initialisation (lines 255–268): empty maps, then a START push
followed by the three seed expansions. -/
def seedPerson (fd : Feed) (cfg : Config) (ctr : ℕ) (log : List Entry)
    (label start : String) : Person × ℕ × List Entry :=
  let specs : List PushSpec :=
    ⟨0, cfg.t0, start, .start start cfg.t0 cfg.t0⟩ :: expandSpecs fd cfg start cfg.t0 0
  let r := pushAll [] ctr log specs
  (⟨label, start, r.1, [], [], []⟩, r.2.1, r.2.2)

/-- The state entering the search loop: all persons seeded in order with
one shared counter. -/
def initState (fd : Feed) (cfg : Config) : GState :=
  let r := cfg.people.foldl
    (fun (acc : List Person × ℕ × List Entry) pl =>
      let s := seedPerson fd cfg acc.2.1 acc.2.2 pl.1 pl.2
      (acc.1 ++ [s.1], s.2.1, s.2.2))
    ([], 0, [])
  ⟨r.1, r.2.1, r.2.2⟩

/-- Models `pop_global`'s candidate selection (lines 274–281): the heap
head of every non-empty frontier, then the least by the full entry key. -/
def popGlobalIdx (ps : List Person) : Option (ℕ × Person × Entry) :=
  (ps.enum.filterMap (fun p =>
      match findMin p.2.pq with
      | some e => some (p.1, p.2, e)
      | none => none)).foldl
    (fun acc c =>
      match acc with
      | none => some c
      | some b => if keyLtB c.2.2 b.2.2 then some c else some b) none

/-- Search outcome: the meeting stop with the final person states, the cap
with the offending label, or drained queues. -/
inductive Outcome
| ok (stop : String) (persons : List Person)
| cap (label : String)
| drained
deriving DecidableEq

/-- One global step either continues with a new state or halts. -/
inductive StepRes
| cont (g : GState)
| halt (o : Outcome)
deriving DecidableEq

/-- State after a pop whose destination was already visited (line 309). -/
def discardStep (g : GState) (i : ℕ) (S : Person) (e : Entry) : GState :=
  { g with persons := g.persons.set i { S with pq := S.pq.erase e } }

/-- Settling a popped entry (lines 309–317): pop, mark visited, record the
predecessor unless START, record the first arrival if absent. -/
def settlePerson (S : Person) (e : Entry) : Person :=
  { S with
    pq := S.pq.erase e
    visited := e.info.toStop :: S.visited
    parent := if e.info.isStart then S.parent else (e.info.toStop, e.info) :: S.parent
    reached :=
      if (S.reached.lookup e.info.toStop).isSome then S.reached
      else (e.info.toStop, (e.info.arriveSec, e.accum)) :: S.reached }

/-- State after settling and expanding a popped entry (lines 311–328):
the owner gets the settled maps and the three expansions pushed into its
frontier, with the global counter advanced and the ghost log extended. -/
def expandStep (fd : Feed) (cfg : Config) (g : GState) (i : ℕ) (S : Person)
    (e : Entry) : GState :=
  let S2 := settlePerson S e
  let r := pushAll S2.pq g.ctr g.log
    (expandSpecs fd cfg e.info.toStop e.info.arriveSec e.accum)
  ⟨g.persons.set i { S2 with pq := r.1 }, r.2.1, r.2.2⟩

/-- One iteration of the search loop (lines 291–328). -/
def searchStep (fd : Feed) (cfg : Config) (g : GState) : StepRes :=
  match popGlobalIdx g.persons with
  | none => .halt .drained
  | some (i, S, e) =>
    if cfg.maxTripTimeS < e.accum then .halt (.cap S.label)
    else if S.visited.contains e.info.toStop then .cont (discardStep g i S e)
    else
      if (g.persons.set i (settlePerson S e)).all
          (fun P => (P.reached.lookup e.info.toStop).isSome) then
        .halt (.ok e.info.toStop (g.persons.set i (settlePerson S e)))
      else .cont (expandStep fd cfg g i S e)

/-- Fuelled run of the search loop. -/
def runSearch (fd : Feed) (cfg : Config) : ℕ → GState → Option Outcome
| 0, _ => none
| n + 1, g =>
  match searchStep fd cfg g with
  | .halt o => some o
  | .cont g2 => runSearch fd cfg n g2

/-- States the search loop can be in. -/
inductive Reachable (fd : Feed) (cfg : Config) : GState → Prop
| init : Reachable fd cfg (initState fd cfg)
| next : ∀ g g', Reachable fd cfg g → searchStep fd cfg g = .cont g' →
    Reachable fd cfg g'

/-- All entries currently sitting in any person's frontier. -/
def allPq (g : GState) : List Entry := g.persons.flatMap (fun P => P.pq)


/-- One expansion step the search rules can generate from stop `v` at
absolute time `t`: a pathway/transfer walk, an unsuppressed geodesic walk
within the radius and walk-time caps, or a ride boarding a row departing
at or after `t`.  The last component is the elapsed-time increment. -/
inductive StepRel (fd : Feed) (cfg : Config) : String → ℤ → String → ℤ → Prop
| walk : ∀ v t we, we ∈ walkEdgesFrom fd v →
    StepRel fd cfg v t we.toStop we.dur
| geo : ∀ v t c d, (c, d) ∈ nearby fd v (maxWalkRadius cfg) →
    ¬ maxWalkRadius cfg < d →
    (providedPairs fd).contains (v, c) = false →
    geoDur cfg d ≤ cfg.maxWalkTimeS →
    StepRel fd cfg v t c (geoDur cfg d)
| ride : ∀ v t r1 r2 dep arr, r1 ∈ fd.stopTimes → r1.stop_id = v →
    depSec r1 = some dep → t ≤ dep →
    r2 ∈ fd.stopTimes → r2.trip_id = r1.trip_id →
    r1.stop_sequence < r2.stop_sequence → arrSec r2 = some arr →
    StepRel fd cfg v t r2.stop_id ((dep - t) + (arr - dep))

/-- A path the expansion rules can generate from `seed` starting at
wall-clock `cfg.t0`, by accumulated elapsed cost.  Along any such path the
absolute time is always `t0 +` the accumulated elapsed, so each step is
taken at time `t0 + c`. -/
inductive Reaches (fd : Feed) (cfg : Config) (seed : String) : String → ℤ → Prop
| base : Reaches fd cfg seed seed 0
| step : ∀ v c w d, Reaches fd cfg seed v c →
    StepRel fd cfg v (cfg.t0 + c) w d → Reaches fd cfg seed w (c + d)

/-- Within one trip, a boarding departure never exceeds a downstream
arrival (the non-negative-edge-weight condition on the feed). -/
def depOkB (r1 r2 : StopTimeRow) : Bool :=
  match depSec r1, arrSec r2 with
  | some d, some a => d ≤ a
  | _, _ => true

/-- Same-trip time consistency of the feed: rides have non-negative
duration.  (GTFS guarantees this; the code does not check it.) -/
@[reducible] def FeedConsistent (fd : Feed) : Prop :=
  fd.stopTimes.all (fun r1 => fd.stopTimes.all (fun r2 =>
    !(r1.trip_id == r2.trip_id && decide (r1.stop_sequence < r2.stop_sequence))
      || depOkB r1 r2)) = true

/-- Per-person search invariant (conditional on feed time consistency):
key/payload coherence, `visited` = domain of `reached_stop_first`,
settled elapsed values never exceed frontier entries, settled stops have
relaxed all their outgoing steps at any later elapsed, the seed is
covered, and every recorded elapsed is path-optimal. -/
structure PersonInv (fd : Feed) (cfg : Config) (P : Person) : Prop where
  coher : ∀ e ∈ P.pq, e.dest = e.info.toStop ∧ e.arr = e.info.arriveSec ∧
    e.arr = cfg.t0 + e.accum
  vis_reached : ∀ s2, s2 ∈ P.visited ↔ (P.reached.lookup s2).isSome
  mono : ∀ s2 ta el, P.reached.lookup s2 = some (ta, el) →
    ∀ e ∈ P.pq, el ≤ e.accum
  reached_arr : ∀ s2 ta el, P.reached.lookup s2 = some (ta, el) →
    ta = cfg.t0 + el
  relaxed : ∀ s2 ta el, P.reached.lookup s2 = some (ta, el) → ∀ c, el ≤ c →
    ∀ w d, StepRel fd cfg s2 (cfg.t0 + c) w d →
      (∃ e ∈ P.pq, e.dest = w ∧ e.accum ≤ c + d) ∨
      (∃ p2 : ℤ × ℤ, P.reached.lookup w = some p2 ∧ p2.2 ≤ c + d)
  seedCov : (∃ e ∈ P.pq, e.dest = P.startStop ∧ e.accum ≤ 0) ∨
    (∃ p2 : ℤ × ℤ, P.reached.lookup P.startStop = some p2 ∧ p2.2 ≤ 0)
  opt : ∀ s2 ta el, P.reached.lookup s2 = some (ta, el) →
    ∀ c, Reaches fd cfg P.startStop s2 c → el ≤ c

/-- The conditional global invariant: every person satisfies its
invariant. -/
def GInv (fd : Feed) (cfg : Config) (g : GState) : Prop :=
  ∀ P ∈ g.persons, PersonInv fd cfg P

/-- Unconditional facts about the state: every logged entry is coherent
(`arrival = t0 + elapsed`), walk payloads are floored at 30 s with GEO
suppression and the GEO duration formula, ride payloads come from real
rows, frontier entries are logged, and the counter stream is exactly
`1, …, ctr` with frontier counters pairwise distinct. -/
structure LogInv (fd : Feed) (cfg : Config) (g : GState) : Prop where
  arr : ∀ e ∈ g.log, e.arr = cfg.t0 + e.accum ∧ e.arr = e.info.arriveSec ∧
    e.dest = e.info.toStop
  walkinfo : ∀ e ∈ g.log, ∀ src f toS w dp ar dm,
    e.info = .walk src f toS w dp ar dm →
    30 ≤ w ∧ (src = .geo →
      ((providedPairs fd).contains (f, toS) = false ∧
        w = geoDur cfg (fd.dist f toS)))
  rideinfo : ∀ e ∈ g.log, ∀ f toS tid w rd dep arr,
    e.info = .ride f toS tid w rd dep arr →
    ∃ r1 r2, r1 ∈ fd.stopTimes ∧ r1.stop_id = f ∧ r1.trip_id = tid ∧
      depSec r1 = some dep ∧ r2 ∈ fd.stopTimes ∧ r2.trip_id = tid ∧
      r1.stop_sequence < r2.stop_sequence ∧ r2.stop_id = toS ∧
      arrSec r2 = some arr
  pqlog : ∀ P ∈ g.persons, ∀ e ∈ P.pq, e ∈ g.log
  logctr : g.log.map Entry.ctr = List.range' 1 g.ctr
  pqctrNodup : ((allPq g).map Entry.ctr).Nodup

/-- Python `max` over a non-empty list. -/
def maxListZ : List ℤ → Option ℤ
| [] => none
| x :: xs => some (xs.foldl max x)

/-- Python `min` over a non-empty list. -/
def minListZ : List ℤ → Option ℤ
| [] => none
| x :: xs => some (xs.foldl min x)

/-- The per-person first absolute arrivals at `p` (line 352–355), in
person order. -/
def arrivalsAt (ps : List Person) (p : String) : List ℤ :=
  ps.filterMap (fun S => (S.reached.lookup p).map (fun v => v.1))

/-- The per-person first recorded elapsed times at `p`. -/
def elapsedAt (ps : List Person) (p : String) : List ℤ :=
  ps.filterMap (fun S => (S.reached.lookup p).map (fun v => v.2))

/-- Reported meeting wall-clock time (line 356). -/
def meetTimeOf (ps : List Person) (p : String) : Option ℤ :=
  maxListZ (arrivalsAt ps p)

/-- Reported fairness spread `max(elapsed) - min(elapsed)` (lines 358–359). -/
def spreadOf (ps : List Person) (p : String) : Option ℤ :=
  match maxListZ (elapsedAt ps p), minListZ (elapsedAt ps p) with
  | some mx, some mn => some (mx - mn)
  | _, _ => none

/-- Pre-state characterisation of the meeting test: the global pop yields
an uncapped entry settling `p` for its owner, and every other person has
already recorded `p`. -/
def okCondPre (cfg : Config) (g : GState) (p : String) : Bool :=
  match popGlobalIdx g.persons with
  | some (i, S, e) =>
    e.info.toStop == p && !(cfg.maxTripTimeS < e.accum) &&
      !(S.visited.contains p) &&
      (g.persons.enum.all (fun q => q.1 == i || (q.2.reached.lookup p).isSome))
  | none => false

/-- The meeting stop of an `OK` halt, if any. -/
def okStopOf : StepRes → Option String
| .halt (.ok s _) => some s
| _ => none

/-- The stop of an `OK` outcome, if any. -/
def outStopOf : Option Outcome → Option String
| some (.ok s _) => some s
| _ => none

/-- True when the outcome is the time cap. -/
def outIsCap : Option Outcome → Bool
| some (.cap _) => true
| _ => false

/-- One row of `stops.txt` as seen by `best_name` (a station group member). -/
structure StopRow where
  stop_id : String
  stop_name : Option String
  stop_desc : Option String
deriving DecidableEq

/-- Python `str.strip()` on a string. -/
def strStrip (s : String) : String := ⟨trimChars s.data⟩

/-- First value of maximal multiplicity (pandas `value_counts().index[0]`;
equal counts keep first occurrence). -/
def modalFirst (l : List String) : Option String :=
  l.foldl (fun best v =>
    match best with
    | none => some v
    | some b => if l.count b < l.count v then some v else best) none

/-- Models `best_name` (lines 67–69): pool the `stop_desc` column on top
of the `stop_name` column, drop `NaN`, strip, and take the most frequent
value; when no candidate exists fall back to the first child's `stop_id`. -/
def bestName (g : List StopRow) : String :=
  let cands := (((g.map (fun r => r.stop_desc)) ++ (g.map (fun r => r.stop_name))).filterMap
    (fun o => o)).map strStrip
  match modalFirst cands with
  | some v => v
  | none => (g.map (fun r => r.stop_id)).headD ""

/-- Modelled from the spec (claim C4 wording): the most frequent non-empty
`stop_desc`; if none, the most frequent non-empty `stop_name`; and if
neither exists, the first child's `stop_id`.  This is the claim's reading,
kept for comparison with the code's `bestName`. -/
def claimedBestName (g : List StopRow) : String :=
  let descs := (((g.map (fun r => r.stop_desc)).filterMap (fun o => o)).map strStrip).filter
    (fun s => s != "")
  let names := (((g.map (fun r => r.stop_name)).filterMap (fun o => o)).map strStrip).filter
    (fun s => s != "")
  match modalFirst descs with
  | some v => v
  | none =>
    match modalFirst names with
    | some v => v
    | none => (g.map (fun r => r.stop_id)).headD ""

/-- The pooled candidate list inside `best_name` (line 68): `stop_desc`
stacked on `stop_name`, `NaN` dropped, stripped. -/
def poolCands (g : List StopRow) : List String :=
  (((g.map (fun r => r.stop_desc)) ++ (g.map (fun r => r.stop_name))).filterMap
    (fun o => o)).map strStrip

/-- Apply one loop iteration when it continues, else stay. -/
def stepOnce (fd : Feed) (cfg : Config) (g : GState) : GState :=
  match searchStep fd cfg g with
  | .cont g2 => g2
  | .halt _ => g

/-- Iterate `stepOnce`. -/
def stepN (fd : Feed) (cfg : Config) : ℕ → GState → GState
| 0, g => g
| n + 1, g => stepN fd cfg n (stepOnce fd cfg g)

/-- True when `e` is a geodesic walk from `u` to `v`. -/
def isGeoTo (e : Entry) (u v : String) : Bool :=
  match e.info with
  | .walk .geo f t _ _ _ _ => f == u && t == v
  | _ => false

/-- No geodesic walk over `(u, v)` was ever pushed. -/
def logNoGeo (g : GState) (u v : String) : Bool :=
  g.log.all (fun e => !(isGeoTo e u v))

/-- An explicit pathway or transfer edge over `(u, v)` was ingested from
the input rows (truthy endpoints, traversal/transfer time present). -/
def explicitRowB (fd : Feed) (u v : String) : Bool :=
  (fd.pathwaysHasCol && fd.pathways.any (fun r =>
    r.from_stop_id == u && r.to_stop_id == v &&
      r.from_stop_id != "" && r.to_stop_id != "" && r.traversal_time.isSome))
  || fd.transfers.any (fun r =>
    r.from_stop_id == u && r.to_stop_id == v &&
      r.from_stop_id != "" && r.to_stop_id != "" && r.min_transfer_time.isSome)

/-- Walk-duration facts for one pushed entry: at least 30 s, and for a
geodesic walk exactly `max(30, ceil(dist / walk_speed))`. -/
def walkDurOkB (fd : Feed) (cfg : Config) (e : Entry) : Bool :=
  match e.info with
  | .walk src f t w _ _ _ =>
    30 ≤ w && (!(src == WSrc.geo) || w == geoDur cfg (fd.dist f t))
  | _ => true

/-- A pushed ride is justified by a boarding row with a parseable
departure and a same-trip later-sequence terminus row with a parseable
arrival. -/
def rideJustifiedB (fd : Feed) (e : Entry) : Bool :=
  match e.info with
  | .ride f t tid _ _ dep arr =>
    fd.stopTimes.any (fun r1 =>
      r1.stop_id == f && r1.trip_id == tid && depSec r1 == some dep &&
      fd.stopTimes.any (fun r2 =>
        r2.trip_id == tid && decide (r1.stop_sequence < r2.stop_sequence) &&
        r2.stop_id == t && arrSec r2 == some arr))
  | _ => true

/-! Concrete instances used by witnesses and counterexamples.  All are
geo-free except `fdC5` (whose `nearby` list is evaluated but never fed to
the walk expander). -/

/-- Two persons on one platform, no schedule. -/
def fdA : Feed :=
  ⟨[], [], false, [], ["X"], fun _ => (0, 0), fun _ _ => 0, fun _ _ => 0, fun _ _ => 0⟩

/-- Configuration with the safety cap set to 0. -/
def cfgA : Config := ⟨46800, 13 / 10, 600, 0, [("A", "X"), ("B", "X")]⟩

/-- Scenario-S3-like ride feed: two trips meeting at `C1`. -/
def fdR : Feed :=
  ⟨[⟨"T1", "N1", 1, some "13:05:00", some "13:05:00"⟩,
    ⟨"T1", "C1", 2, some "13:15:00", some "13:15:00"⟩,
    ⟨"T2", "S1", 1, some "13:07:00", some "13:07:00"⟩,
    ⟨"T2", "C1", 2, some "13:20:00", some "13:20:00"⟩],
   [], false, [], ["N1", "S1", "C1"],
   fun s => if s == "N1" then (0, 0) else if s == "S1" then (5, 5) else (9, 9),
   fun _ _ => 10000, fun _ _ => 0, fun _ _ => 0⟩

/-- Reference-style configuration for `fdR`. -/
def cfgR : Config := ⟨46800, 13 / 10, 600, 7200, [("A", "N1"), ("B", "S1")]⟩

/-- Same as `cfgR` with the safety cap set to 0. -/
def cfgR0 : Config := ⟨46800, 13 / 10, 600, 0, [("A", "N1"), ("B", "S1")]⟩

/-- One pathway edge `X → Y` of 120 s; one person seeded at `X`. -/
def fdW : Feed :=
  ⟨[], [⟨"X", "Y", some 120⟩], true, [], ["X", "Y"],
   fun s => if s == "X" then (0, 0) else (5, 5),
   fun _ _ => 10000, fun _ _ => 0, fun _ _ => 0⟩

/-- One person at `X` for `fdW`. -/
def cfgW : Config := ⟨46800, 13 / 10, 600, 7200, [("A", "X")]⟩

/-- Two platforms sharing one grid cell, 100 m apart. -/
def fdC5 : Feed :=
  ⟨[], [], false, [], ["P", "Q"], fun _ => (0, 0), fun _ _ => 100,
   fun _ _ => 0, fun _ _ => 0⟩

/-- Station group refuting the sequential desc-then-name reading: descs
pool to `["X"]`, names to `["Y", "Y"]`. -/
def gC4 : List StopRow := [⟨"a", some "Y", none⟩, ⟨"b", some "Y", some "X"⟩]

/-! Order lemmas for the entry-key comparison. -/

lemma char_toNat_inj {a b : Char} (h : a.toNat = b.toNat) : a = b :=
  Char.eq_of_val_eq (UInt32.eq_of_toBitVec_eq (BitVec.toNat_injective h))

lemma string_data_inj {s t : String} (h : s.data = t.data) : s = t := by
  cases s; cases t; exact congrArg String.mk h

lemma charsLtB_irrefl : ∀ l, charsLtB l l = false
| [] => rfl
| a :: as => by
  show (decide (a.toNat < a.toNat) || ((a.toNat == a.toNat) && charsLtB as as)) = false
  rw [charsLtB_irrefl as]
  simp

lemma charsLtB_trans :
    ∀ a b c, charsLtB a b = true → charsLtB b c = true → charsLtB a c = true
| _, [], [], _, h2 => by simp [charsLtB] at h2
| _, _ :: _, [], _, h2 => by simp [charsLtB] at h2
| [], [], _ :: _, h1, _ => by simp [charsLtB] at h1
| _ :: _, [], _ :: _, h1, _ => by simp [charsLtB] at h1
| [], _ :: _, _ :: _, _, _ => rfl
| a :: as, b :: bs, c :: cs, h1, h2 => by
  simp only [charsLtB, Bool.or_eq_true, Bool.and_eq_true, decide_eq_true_eq,
    beq_iff_eq] at h1 h2 ⊢
  rcases h1 with h1 | ⟨e1, h1⟩
  · rcases h2 with h2 | ⟨e2, h2⟩
    · exact Or.inl (h1.trans h2)
    · exact Or.inl (e2 ▸ h1)
  · rcases h2 with h2 | ⟨e2, h2⟩
    · exact Or.inl (e1 ▸ h2)
    · exact Or.inr ⟨e1.trans e2, charsLtB_trans as bs cs h1 h2⟩

lemma charsLtB_eq :
    ∀ a b, charsLtB a b = false → charsLtB b a = false → a = b
| [], [], _, _ => rfl
| [], _ :: _, h1, _ => by simp [charsLtB] at h1
| _ :: _, [], _, h2 => by simp [charsLtB] at h2
| a :: as, b :: bs, h1, h2 => by
  simp only [charsLtB, Bool.or_eq_false_iff, Bool.and_eq_false_iff,
    decide_eq_false_iff_not, beq_eq_false_iff_ne, ne_eq, not_lt] at h1 h2
  obtain ⟨hab, h1r⟩ := h1
  obtain ⟨hba, h2r⟩ := h2
  have hn : a.toNat = b.toNat := le_antisymm hba hab
  have hc : a = b := char_toNat_inj hn
  subst hc
  rcases h1r with h1r | h1r
  · exact absurd rfl h1r
  · rcases h2r with h2r | h2r
    · exact absurd rfl h2r
    · exact congrArg (a :: ·) (charsLtB_eq as bs h1r h2r)

lemma strLtB_irrefl (s : String) : strLtB s s = false := charsLtB_irrefl s.data

lemma strLtB_trans {a b c : String} (h1 : strLtB a b = true)
    (h2 : strLtB b c = true) : strLtB a c = true :=
  charsLtB_trans a.data b.data c.data h1 h2

lemma strLtB_eq {a b : String} (h1 : strLtB a b = false)
    (h2 : strLtB b a = false) : a = b :=
  string_data_inj (charsLtB_eq a.data b.data h1 h2)

lemma keyLtB_unfold (e f : Entry) :
    keyLtB e f = (decide (e.accum < f.accum) || ((e.accum == f.accum) &&
      (decide (e.arr < f.arr) || ((e.arr == f.arr) &&
        (strLtB e.dest f.dest || ((e.dest == f.dest) &&
          decide (e.ctr < f.ctr))))))) := rfl

lemma keyLtB_irrefl (e : Entry) : keyLtB e e = false := by
  simp [keyLtB_unfold, strLtB_irrefl]

lemma keyLtB_trans {a b c : Entry} (h1 : keyLtB a b = true)
    (h2 : keyLtB b c = true) : keyLtB a c = true := by
  simp only [keyLtB_unfold, Bool.or_eq_true, Bool.and_eq_true,
    decide_eq_true_eq, beq_iff_eq] at h1 h2 ⊢
  rcases h1 with h1 | ⟨e1, h1⟩
  · rcases h2 with h2 | ⟨e2, h2⟩
    · exact Or.inl (h1.trans h2)
    · exact Or.inl (e2 ▸ h1)
  · rcases h2 with h2 | ⟨e2, h2⟩
    · exact Or.inl (e1 ▸ h2)
    · refine Or.inr ⟨e1.trans e2, ?_⟩
      rcases h1 with h1 | ⟨f1, h1⟩
      · rcases h2 with h2 | ⟨f2, h2⟩
        · exact Or.inl (h1.trans h2)
        · exact Or.inl (f2 ▸ h1)
      · rcases h2 with h2 | ⟨f2, h2⟩
        · exact Or.inl (f1 ▸ h2)
        · refine Or.inr ⟨f1.trans f2, ?_⟩
          rcases h1 with h1 | ⟨g1, h1⟩
          · rcases h2 with h2 | ⟨g2, h2⟩
            · exact Or.inl (strLtB_trans h1 h2)
            · exact Or.inl (g2 ▸ h1)
          · rcases h2 with h2 | ⟨g2, h2⟩
            · exact Or.inl (g1 ▸ h2)
            · exact Or.inr ⟨g1.trans g2, h1.trans h2⟩

lemma keyLtB_ff_eq {a b : Entry} (h1 : keyLtB a b = false)
    (h2 : keyLtB b a = false) : key4 a = key4 b := by
  simp only [keyLtB_unfold, Bool.or_eq_false_iff, Bool.and_eq_false_iff,
    decide_eq_false_iff_not, beq_eq_false_iff_ne, ne_eq, not_lt] at h1 h2
  obtain ⟨hab, h1r⟩ := h1
  obtain ⟨hba, h2r⟩ := h2
  have e1 : a.accum = b.accum := le_antisymm hba hab
  rcases h1r with h1r | h1r; · exact absurd e1 h1r
  rcases h2r with h2r | h2r; · exact absurd e1.symm h2r
  obtain ⟨hab2, h1r⟩ := h1r
  obtain ⟨hba2, h2r⟩ := h2r
  have e2 : a.arr = b.arr := le_antisymm hba2 hab2
  rcases h1r with h1r | h1r; · exact absurd e2 h1r
  rcases h2r with h2r | h2r; · exact absurd e2.symm h2r
  obtain ⟨hab3, h1r⟩ := h1r
  obtain ⟨hba3, h2r⟩ := h2r
  have e3 : a.dest = b.dest := strLtB_eq hab3 hba3
  rcases h1r with h1r | h1r; · exact absurd e3 h1r
  rcases h2r with h2r | h2r; · exact absurd e3.symm h2r
  have e4 : a.ctr = b.ctr := le_antisymm h2r h1r
  simp [key4, e1, e2, e3, e4]

lemma keyLtB_congr_left {a b x : Entry} (h : key4 a = key4 b) :
    keyLtB a x = keyLtB b x := by
  simp only [key4, Prod.mk.injEq] at h
  obtain ⟨h1, h2, h3, h4⟩ := h
  simp [keyLtB_unfold, h1, h2, h3, h4]

lemma keyLtB_congr_right {a b x : Entry} (h : key4 a = key4 b) :
    keyLtB x a = keyLtB x b := by
  simp only [key4, Prod.mk.injEq] at h
  obtain ⟨h1, h2, h3, h4⟩ := h
  simp [keyLtB_unfold, h1, h2, h3, h4]

/-- From `a ≤ b` (encoded `¬(b < a)`) and `b < c` conclude `a < c`. -/
lemma keyLtB_le_lt_trans {a b c : Entry} (h1 : keyLtB b a = false)
    (h2 : keyLtB b c = true) : keyLtB a c = true := by
  cases hac : keyLtB a c
  · cases hca : keyLtB c a
    · have hk := keyLtB_ff_eq hac hca
      have h3 : keyLtB b a = true := by
        rw [keyLtB_congr_right hk]; exact h2
      rw [h3] at h1; cases h1
    · have h3 := keyLtB_trans h2 hca
      rw [h3] at h1; cases h1
  · rfl

/-- From `a < b` and `b ≤ c` (encoded `¬(c < b)`) conclude `a < c`. -/
lemma keyLtB_lt_le_trans {a b c : Entry} (h1 : keyLtB a b = true)
    (h2 : keyLtB c b = false) : keyLtB a c = true := by
  cases hac : keyLtB a c
  · cases hca : keyLtB c a
    · have hk := keyLtB_ff_eq hac hca
      have h3 : keyLtB c b = true := by
        rw [← keyLtB_congr_left hk]; exact h1
      rw [h3] at h2; cases h2
    · have h3 := keyLtB_trans hca h1
      rw [h3] at h2; cases h2
  · rfl

lemma keyLtB_accum_le {x e : Entry} (h : keyLtB x e = false) :
    e.accum ≤ x.accum := by
  by_contra hlt
  push_neg at hlt
  have : keyLtB x e = true := by
    simp [keyLtB_unfold, hlt]
  rw [this] at h; cases h

/-! `findMin` and `popGlobalIdx` specifications. -/

lemma findMin_fold_spec :
    ∀ (l : List Entry) (acc : Option Entry) (m : Entry),
      l.foldl (fun acc e =>
        match acc with
        | none => some e
        | some b => if keyLtB e b then some e else some b) acc = some m →
      (acc = some m ∨ m ∈ l) ∧
      (∀ x ∈ l, keyLtB x m = false) ∧
      (∀ b, acc = some b → keyLtB b m = false)
| [], acc, m => by
  intro h
  simp only [List.foldl_nil] at h
  refine ⟨Or.inl h, by simp, ?_⟩
  intro b hb
  rw [h] at hb
  cases hb
  exact keyLtB_irrefl m
| e :: rest, acc, m => by
  intro h
  simp only [List.foldl_cons] at h
  obtain ⟨hmem, hmin, hacc⟩ := findMin_fold_spec rest _ m h
  have hstep : ∀ b2, (match acc with
      | none => some e
      | some b => if keyLtB e b then some e else some b) = some b2 →
      keyLtB b2 m = false := hacc
  have hem : keyLtB e m = false := by
    cases acc with
    | none => exact hstep e rfl
    | some b =>
      by_cases hc : keyLtB e b = true
      · exact hstep e (by simp [hc])
      · have hbm : keyLtB b m = false := hstep b (by simp [Bool.not_eq_true] at hc; simp [hc])
        cases hem2 : keyLtB e m
        · rfl
        · have h3 := keyLtB_lt_le_trans hem2 hbm
          simp only [Bool.not_eq_true] at hc
          rw [hc] at h3; cases h3
  constructor
  · cases acc with
    | none =>
      rcases hmem with hmem | hmem
      · cases hmem; exact Or.inr (List.mem_cons_self _ _)
      · exact Or.inr (List.mem_cons_of_mem _ hmem)
    | some b =>
      by_cases hc : keyLtB e b = true
      · simp only [hc, if_true] at hmem
        rcases hmem with hmem | hmem
        · cases hmem; exact Or.inr (List.mem_cons_self _ _)
        · exact Or.inr (List.mem_cons_of_mem _ hmem)
      · simp only [Bool.not_eq_true] at hc
        simp only [hc, Bool.false_eq_true, if_false] at hmem
        rcases hmem with hmem | hmem
        · exact Or.inl hmem
        · exact Or.inr (List.mem_cons_of_mem _ hmem)
  · refine ⟨?_, ?_⟩
    · intro x hx
      rcases List.mem_cons.mp hx with hx | hx
      · cases hx; exact hem
      · exact hmin x hx
    · intro b hb
      cases acc with
      | none => cases hb
      | some b0 =>
        cases hb
        by_cases hc : keyLtB e b = true
        · cases hbm : keyLtB b m
          · rfl
          · have := keyLtB_trans hc hbm
            rw [this] at hem; cases hem
        · have : (match (some b : Option Entry) with
              | none => some e
              | some b => if keyLtB e b then some e else some b) = some b := by
            simp [Bool.not_eq_true] at hc; simp [hc]
          exact hstep b this

lemma findMin_spec {l : List Entry} {m : Entry} (h : findMin l = some m) :
    m ∈ l ∧ ∀ x ∈ l, keyLtB x m = false := by
  obtain ⟨hmem, hmin, _⟩ := findMin_fold_spec l none m h
  rcases hmem with hmem | hmem
  · cases hmem
  · exact ⟨hmem, hmin⟩

lemma findMin_fold_isSome :
    ∀ (l : List Entry) (acc : Option Entry), acc.isSome →
      (l.foldl (fun acc e =>
        match acc with
        | none => some e
        | some b => if keyLtB e b then some e else some b) acc).isSome
| [], acc, h => by simpa using h
| e :: rest, acc, h => by
  simp only [List.foldl_cons]
  apply findMin_fold_isSome
  cases acc with
  | none => rfl
  | some b =>
    by_cases hc : keyLtB e b = true
    · simp [hc]
    · simp only [Bool.not_eq_true] at hc; simp [hc]

lemma findMin_isSome {l : List Entry} (h : l ≠ []) : (findMin l).isSome := by
  cases l with
  | nil => exact absurd rfl h
  | cons e rest =>
    show (List.foldl _ (some e) rest).isSome
    exact findMin_fold_isSome rest (some e) rfl

lemma popGlobal_fold_spec :
    ∀ (l : List (ℕ × Person × Entry)) (acc : Option (ℕ × Person × Entry))
      (m : ℕ × Person × Entry),
      l.foldl (fun acc c =>
        match acc with
        | none => some c
        | some b => if keyLtB c.2.2 b.2.2 then some c else some b) acc = some m →
      (acc = some m ∨ m ∈ l) ∧
      (∀ c ∈ l, keyLtB c.2.2 m.2.2 = false) ∧
      (∀ b, acc = some b → keyLtB b.2.2 m.2.2 = false)
| [], acc, m => by
  intro h
  simp only [List.foldl_nil] at h
  refine ⟨Or.inl h, by simp, ?_⟩
  intro b hb
  rw [h] at hb
  cases hb
  exact keyLtB_irrefl m.2.2
| e :: rest, acc, m => by
  intro h
  simp only [List.foldl_cons] at h
  obtain ⟨hmem, hmin, hacc⟩ := popGlobal_fold_spec rest _ m h
  have hstep : ∀ b2, (match acc with
      | none => some e
      | some b => if keyLtB e.2.2 b.2.2 then some e else some b) = some b2 →
      keyLtB b2.2.2 m.2.2 = false := hacc
  have hem : keyLtB e.2.2 m.2.2 = false := by
    cases acc with
    | none => exact hstep e rfl
    | some b =>
      by_cases hc : keyLtB e.2.2 b.2.2 = true
      · exact hstep e (by simp [hc])
      · have hbm : keyLtB b.2.2 m.2.2 = false :=
          hstep b (by simp [Bool.not_eq_true] at hc; simp [hc])
        cases hem2 : keyLtB e.2.2 m.2.2
        · rfl
        · have h3 := keyLtB_lt_le_trans hem2 hbm
          simp only [Bool.not_eq_true] at hc
          rw [hc] at h3; cases h3
  constructor
  · cases acc with
    | none =>
      rcases hmem with hmem | hmem
      · cases hmem; exact Or.inr (List.mem_cons_self _ _)
      · exact Or.inr (List.mem_cons_of_mem _ hmem)
    | some b =>
      by_cases hc : keyLtB e.2.2 b.2.2 = true
      · simp only [hc, if_true] at hmem
        rcases hmem with hmem | hmem
        · cases hmem; exact Or.inr (List.mem_cons_self _ _)
        · exact Or.inr (List.mem_cons_of_mem _ hmem)
      · simp only [Bool.not_eq_true] at hc
        simp only [hc, Bool.false_eq_true, if_false] at hmem
        rcases hmem with hmem | hmem
        · exact Or.inl hmem
        · exact Or.inr (List.mem_cons_of_mem _ hmem)
  · refine ⟨?_, ?_⟩
    · intro x hx
      rcases List.mem_cons.mp hx with hx | hx
      · cases hx; exact hem
      · exact hmin x hx
    · intro b hb
      cases acc with
      | none => cases hb
      | some b0 =>
        cases hb
        by_cases hc : keyLtB e.2.2 b.2.2 = true
        · cases hbm : keyLtB b.2.2 m.2.2
          · rfl
          · have h3 := keyLtB_trans hc hbm
            rw [h3] at hem; cases hem
        · have : (match (some b : Option (ℕ × Person × Entry)) with
              | none => some e
              | some b2 => if keyLtB e.2.2 b2.2.2 then some e else some b2) = some b := by
            simp [Bool.not_eq_true] at hc; simp [hc]
          exact hstep b this

/-- The candidate list scanned by `pop_global`. -/
lemma mem_popCands {ps : List Person} {c : ℕ × Person × Entry} :
    c ∈ ps.enum.filterMap (fun p =>
      match findMin p.2.pq with
      | some e => some (p.1, p.2, e)
      | none => none) ↔
    ps.get? c.1 = some c.2.1 ∧ findMin c.2.1.pq = some c.2.2 := by
  rw [List.mem_filterMap]
  constructor
  · rintro ⟨⟨j, Q⟩, hmem, hf⟩
    cases hfm : findMin Q.pq with
    | none => rw [hfm] at hf; cases hf
    | some e2 =>
      rw [hfm] at hf
      cases hf
      refine ⟨?_, hfm⟩
      have := List.mk_mem_enum_iff_getElem?.mp hmem
      simpa [List.get?_eq_getElem?] using this
  · rintro ⟨hget, hfm⟩
    refine ⟨(c.1, c.2.1), ?_, ?_⟩
    · apply List.mk_mem_enum_iff_getElem?.mpr
      simpa [List.get?_eq_getElem?] using hget
    · simp [hfm]

lemma popGlobalIdx_spec {ps : List Person} {i : ℕ} {S : Person} {e : Entry}
    (h : popGlobalIdx ps = some (i, S, e)) :
    ps.get? i = some S ∧ findMin S.pq = some e ∧
    (∀ j Q, ps.get? j = some Q → ∀ x ∈ Q.pq, keyLtB x e = false) := by
  obtain ⟨hmem, hmin, _⟩ := popGlobal_fold_spec _ none _ h
  rcases hmem with hmem | hmem
  · cases hmem
  · obtain ⟨hget, hfm⟩ := mem_popCands.mp hmem
    refine ⟨hget, hfm, ?_⟩
    intro j Q hQ x hx
    have hne : Q.pq ≠ [] := by
      intro h0; rw [h0] at hx; cases hx
    obtain ⟨mq, hmq⟩ := Option.isSome_iff_exists.mp (findMin_isSome hne)
    have hcand : (j, Q, mq) ∈ ps.enum.filterMap (fun p =>
        match findMin p.2.pq with
        | some e => some (p.1, p.2, e)
        | none => none) := mem_popCands.mpr ⟨hQ, hmq⟩
    have hqe : keyLtB mq e = false := hmin (j, Q, mq) hcand
    have hxq : keyLtB x mq = false := (findMin_spec hmq).2 x hx
    cases hxe : keyLtB x e
    · rfl
    · have h3 := keyLtB_lt_le_trans hxe hqe
      rw [h3] at hxq; cases hxq

/-! `pushAll` and the ghost log. -/

lemma pushAll_eq :
    ∀ (specs : List PushSpec) (pq : List Entry) (ctr : ℕ) (log : List Entry),
      pushAll pq ctr log specs =
        (pq ++ mkEntries ctr specs, ctr + specs.length, log ++ mkEntries ctr specs)
| [], pq, ctr, log => by simp [pushAll, mkEntries]
| s :: rest, pq, ctr, log => by
  rw [pushAll, pushAll_eq rest]
  simp [mkEntries, Nat.add_comm, Nat.add_assoc, Nat.add_left_comm]

lemma mkEntries_map_ctr :
    ∀ (specs : List PushSpec) (c : ℕ),
      (mkEntries c specs).map Entry.ctr = List.range' (c + 1) specs.length
| [], c => rfl
| s :: rest, c => by
  simp [mkEntries, mkEntry, List.range'_succ, mkEntries_map_ctr rest]

lemma mem_mkEntries {specs : List PushSpec} {c : ℕ} {e : Entry}
    (h : e ∈ mkEntries c specs) :
    (∃ k, e.ctr = k ∧ c < k ∧ k ≤ c + specs.length) ∧
      ∃ s ∈ specs, e.accum = s.accum ∧ e.arr = s.arr ∧ e.dest = s.dest ∧
        e.info = s.info := by
  induction specs generalizing c with
  | nil => cases h
  | cons s rest ih =>
    rcases List.mem_cons.mp h with h | h
    · subst h
      exact ⟨⟨c + 1, rfl, Nat.lt_succ_self c, by simp only [List.length_cons]; omega⟩,
        s, List.mem_cons_self _ _, rfl, rfl, rfl, rfl⟩
    · obtain ⟨⟨k, hk, hk1, hk2⟩, s2, hs2, hrest⟩ := ih h
      exact ⟨⟨k, hk, Nat.lt_of_succ_lt hk1, by simp only [List.length_cons]; omega⟩,
        s2, List.mem_cons_of_mem _ hs2, hrest⟩

lemma mkEntries_mem_of_spec :
    ∀ {specs : List PushSpec} {s : PushSpec} (c : ℕ), s ∈ specs →
      ∃ e ∈ mkEntries c specs, e.accum = s.accum ∧ e.arr = s.arr ∧
        e.dest = s.dest ∧ e.info = s.info := by
  intro specs
  induction specs with
  | nil => intro s c h; cases h
  | cons s0 rest ih =>
    intro s c h
    rcases List.mem_cons.mp h with h | h
    · subst h
      exact ⟨mkEntry (c + 1) s, List.mem_cons_self _ _, rfl, rfl, rfl, rfl⟩
    · obtain ⟨e, he, hprops⟩ := ih (c + 1) h
      exact ⟨e, List.mem_cons_of_mem _ he, hprops⟩

/-! Walk-edge ingest lemmas. -/

lemma ingest_pathways_fold_edges :
    ∀ (rows : List PathwayRow) (acc : List WalkEdge × List (String × String))
      (we : WalkEdge),
      we ∈ (rows.foldl
        (fun (acc : List WalkEdge × List (String × String)) r =>
          match r.traversal_time with
          | some tt =>
            if r.from_stop_id != "" && r.to_stop_id != "" then
              (acc.1 ++ [⟨r.from_stop_id, r.to_stop_id, max 30 tt, .pathways⟩],
               acc.2 ++ [(r.from_stop_id, r.to_stop_id)])
            else acc
          | none => acc) acc).1 →
      we ∈ acc.1 ∨ (30 ≤ we.dur ∧ we.src = WSrc.pathways ∧
        ∃ r ∈ rows, ∃ tt, r.traversal_time = some tt ∧
          r.from_stop_id ≠ "" ∧ r.to_stop_id ≠ "" ∧
          we.fromStop = r.from_stop_id ∧ we.toStop = r.to_stop_id ∧
          we.dur = max 30 tt)
| [], acc, we => fun h => Or.inl h
| r :: rest, acc, we => by
  intro h
  simp only [List.foldl_cons] at h
  rcases ingest_pathways_fold_edges rest _ we h with h2 | h2
  · split at h2
    next tt htt =>
      split at h2
      next hc =>
        rcases List.mem_append.mp h2 with h3 | h3
        · exact Or.inl h3
        · rcases List.mem_singleton.mp h3 with h4
          subst h4
          simp only [bne_iff_ne, ne_eq, Bool.and_eq_true] at hc
          exact Or.inr ⟨le_max_left _ _, rfl, r, List.mem_cons_self _ _, tt, htt,
            hc.1, hc.2, rfl, rfl, rfl⟩
      next hc => exact Or.inl h2
    next htt => exact Or.inl h2
  · obtain ⟨hd, hs, r2, hr2, hrest⟩ := h2
    exact Or.inr ⟨hd, hs, r2, List.mem_cons_of_mem _ hr2, hrest⟩

lemma ingest_transfers_fold_edges :
    ∀ (rows : List TransferRow) (acc : List WalkEdge × List (String × String))
      (we : WalkEdge),
      we ∈ (rows.foldl
        (fun (acc : List WalkEdge × List (String × String)) r =>
          match r.min_transfer_time with
          | some tt =>
            if r.from_stop_id != "" && r.to_stop_id != "" then
              (acc.1 ++ [⟨r.from_stop_id, r.to_stop_id, max 30 tt, .transfers⟩],
               acc.2 ++ [(r.from_stop_id, r.to_stop_id)])
            else acc
          | none => acc) acc).1 →
      we ∈ acc.1 ∨ (30 ≤ we.dur ∧ we.src = WSrc.transfers ∧
        ∃ r ∈ rows, ∃ tt, r.min_transfer_time = some tt ∧
          r.from_stop_id ≠ "" ∧ r.to_stop_id ≠ "" ∧
          we.fromStop = r.from_stop_id ∧ we.toStop = r.to_stop_id ∧
          we.dur = max 30 tt)
| [], acc, we => fun h => Or.inl h
| r :: rest, acc, we => by
  intro h
  simp only [List.foldl_cons] at h
  rcases ingest_transfers_fold_edges rest _ we h with h2 | h2
  · split at h2
    next tt htt =>
      split at h2
      next hc =>
        rcases List.mem_append.mp h2 with h3 | h3
        · exact Or.inl h3
        · rcases List.mem_singleton.mp h3 with h4
          subst h4
          simp only [bne_iff_ne, ne_eq, Bool.and_eq_true] at hc
          exact Or.inr ⟨le_max_left _ _, rfl, r, List.mem_cons_self _ _, tt, htt,
            hc.1, hc.2, rfl, rfl, rfl⟩
      next hc => exact Or.inl h2
    next htt => exact Or.inl h2
  · obtain ⟨hd, hs, r2, hr2, hrest⟩ := h2
    exact Or.inr ⟨hd, hs, r2, List.mem_cons_of_mem _ hr2, hrest⟩

/-- Every ingested walk edge has duration at least 30 s. -/
lemma walkEdgesAll_dur {fd : Feed} {we : WalkEdge} (h : we ∈ walkEdgesAll fd) :
    30 ≤ we.dur := by
  have h2 := ingest_transfers_fold_edges fd.transfers _ we h
  rcases h2 with h2 | h2
  · have h3 := ingest_pathways_fold_edges
      (if fd.pathwaysHasCol then fd.pathways else []) ([], []) we h2
    rcases h3 with h3 | h3
    · cases h3
    · exact h3.1
  · exact h2.1

lemma walkEdgesFrom_sub {fd : Feed} {s : String} {we : WalkEdge}
    (h : we ∈ walkEdgesFrom fd s) : we ∈ walkEdgesAll fd ∧ we.fromStop = s := by
  have h2 := List.mem_filter.mp h
  refine ⟨h2.1, by simpa using h2.2⟩

/-! The `provided_pairs` set: membership characterisation. -/

lemma ingest_pathways_fold_pairs :
    ∀ (rows : List PathwayRow) (acc : List WalkEdge × List (String × String))
      (u v : String),
      ((u, v) ∈ (rows.foldl
        (fun (acc : List WalkEdge × List (String × String)) r =>
          match r.traversal_time with
          | some tt =>
            if r.from_stop_id != "" && r.to_stop_id != "" then
              (acc.1 ++ [⟨r.from_stop_id, r.to_stop_id, max 30 tt, .pathways⟩],
               acc.2 ++ [(r.from_stop_id, r.to_stop_id)])
            else acc
          | none => acc) acc).2) ↔
      ((u, v) ∈ acc.2 ∨ ∃ r ∈ rows, r.traversal_time.isSome ∧
        r.from_stop_id ≠ "" ∧ r.to_stop_id ≠ "" ∧
        r.from_stop_id = u ∧ r.to_stop_id = v)
| [], acc, u, v => by simp
| r :: rest, acc, u, v => by
  simp only [List.foldl_cons]
  rw [ingest_pathways_fold_pairs rest]
  constructor
  · rintro (h2 | h2)
    · split at h2
      next tt htt =>
        split at h2
        next hc =>
          rcases List.mem_append.mp h2 with h3 | h3
          · exact Or.inl h3
          · rcases List.mem_singleton.mp h3 with h4
            simp only [Prod.mk.injEq] at h4
            simp only [bne_iff_ne, ne_eq, Bool.and_eq_true] at hc
            exact Or.inr ⟨r, List.mem_cons_self _ _, by simp [htt], hc.1, hc.2,
              h4.1.symm, h4.2.symm⟩
        next hc => exact Or.inl h2
      next htt => exact Or.inl h2
    · obtain ⟨r2, hr2, hrest⟩ := h2
      exact Or.inr ⟨r2, List.mem_cons_of_mem _ hr2, hrest⟩
  · rintro (h2 | h2)
    · left
      split
      next tt htt =>
        split
        next hc => exact List.mem_append_left _ h2
        next hc => exact h2
      next htt => exact h2
    · obtain ⟨r2, hr2, hsome, hne1, hne2, he1, he2⟩ := h2
      rcases List.mem_cons.mp hr2 with hr2 | hr2
      · subst hr2
        left
        obtain ⟨tt, htt⟩ := Option.isSome_iff_exists.mp hsome
        split
        next tt2 htt2 =>
          split
          next hc => exact List.mem_append_right _ (by simp [he1, he2])
          next hc =>
            rw [htt2] at htt
            exact absurd (by simp [bne_iff_ne, hne1, hne2]) hc
        next htt2 => rw [htt2] at htt; cases htt
      · exact Or.inr ⟨r2, hr2, hsome, hne1, hne2, he1, he2⟩

lemma ingest_transfers_fold_pairs :
    ∀ (rows : List TransferRow) (acc : List WalkEdge × List (String × String))
      (u v : String),
      ((u, v) ∈ (rows.foldl
        (fun (acc : List WalkEdge × List (String × String)) r =>
          match r.min_transfer_time with
          | some tt =>
            if r.from_stop_id != "" && r.to_stop_id != "" then
              (acc.1 ++ [⟨r.from_stop_id, r.to_stop_id, max 30 tt, .transfers⟩],
               acc.2 ++ [(r.from_stop_id, r.to_stop_id)])
            else acc
          | none => acc) acc).2) ↔
      ((u, v) ∈ acc.2 ∨ ∃ r ∈ rows, r.min_transfer_time.isSome ∧
        r.from_stop_id ≠ "" ∧ r.to_stop_id ≠ "" ∧
        r.from_stop_id = u ∧ r.to_stop_id = v)
| [], acc, u, v => by simp
| r :: rest, acc, u, v => by
  simp only [List.foldl_cons]
  rw [ingest_transfers_fold_pairs rest]
  constructor
  · rintro (h2 | h2)
    · split at h2
      next tt htt =>
        split at h2
        next hc =>
          rcases List.mem_append.mp h2 with h3 | h3
          · exact Or.inl h3
          · rcases List.mem_singleton.mp h3 with h4
            simp only [Prod.mk.injEq] at h4
            simp only [bne_iff_ne, ne_eq, Bool.and_eq_true] at hc
            exact Or.inr ⟨r, List.mem_cons_self _ _, by simp [htt], hc.1, hc.2,
              h4.1.symm, h4.2.symm⟩
        next hc => exact Or.inl h2
      next htt => exact Or.inl h2
    · obtain ⟨r2, hr2, hrest⟩ := h2
      exact Or.inr ⟨r2, List.mem_cons_of_mem _ hr2, hrest⟩
  · rintro (h2 | h2)
    · left
      split
      next tt htt =>
        split
        next hc => exact List.mem_append_left _ h2
        next hc => exact h2
      next htt => exact h2
    · obtain ⟨r2, hr2, hsome, hne1, hne2, he1, he2⟩ := h2
      rcases List.mem_cons.mp hr2 with hr2 | hr2
      · subst hr2
        left
        obtain ⟨tt, htt⟩ := Option.isSome_iff_exists.mp hsome
        split
        next tt2 htt2 =>
          split
          next hc => exact List.mem_append_right _ (by simp [he1, he2])
          next hc =>
            rw [htt2] at htt
            exact absurd (by simp [bne_iff_ne, hne1, hne2]) hc
        next htt2 => rw [htt2] at htt; cases htt
      · exact Or.inr ⟨r2, hr2, hsome, hne1, hne2, he1, he2⟩

/-- `provided_pairs` holds exactly the ordered pairs of ingested explicit
pathway/transfer rows. -/
lemma providedPairs_iff {fd : Feed} {u v : String} :
    (u, v) ∈ providedPairs fd ↔ explicitRowB fd u v = true := by
  show (u, v) ∈ (ingestWalks fd).2 ↔ _
  rw [ingestWalks]
  rw [ingest_transfers_fold_pairs, ingest_pathways_fold_pairs]
  simp only [List.not_mem_nil, false_or]
  unfold explicitRowB
  constructor
  · rintro (⟨r, hr, hsome, hne1, hne2, he1, he2⟩ | ⟨r, hr, hsome, hne1, hne2, he1, he2⟩)
    · by_cases hcol : fd.pathwaysHasCol
      · rw [hcol] at hr
        apply Bool.or_eq_true_iff.mpr
        left
        simp only [hcol, Bool.true_and]
        refine List.any_eq_true.mpr ⟨r, by simpa using hr, ?_⟩
        simp [he1, he2, hsome, he1 ▸ hne1, he2 ▸ hne2]
      · simp only [Bool.not_eq_true] at hcol
        rw [hcol] at hr
        simp at hr
    · apply Bool.or_eq_true_iff.mpr
      right
      refine List.any_eq_true.mpr ⟨r, hr, ?_⟩
      simp [he1, he2, hsome, he1 ▸ hne1, he2 ▸ hne2]
  · intro h
    rcases Bool.or_eq_true_iff.mp h with h | h
    · simp only [Bool.and_eq_true] at h
      obtain ⟨hcol, h2⟩ := h
      obtain ⟨r, hr, hp⟩ := List.any_eq_true.mp h2
      simp only [Bool.and_eq_true, beq_iff_eq, bne_iff_ne, ne_eq] at hp
      obtain ⟨⟨⟨⟨hp1, hp2⟩, hp3⟩, hp4⟩, hp5⟩ := hp
      left
      exact ⟨r, by rw [hcol]; exact hr, hp5, hp3, hp4, hp1, hp2⟩
    · obtain ⟨r, hr, hp⟩ := List.any_eq_true.mp h
      simp only [Bool.and_eq_true, beq_iff_eq, bne_iff_ne, ne_eq] at hp
      obtain ⟨⟨⟨⟨hp1, hp2⟩, hp3⟩, hp4⟩, hp5⟩ := hp
      right
      exact ⟨r, hr, hp5, hp3, hp4, hp1, hp2⟩

/-! Spatial-index (`nearby`) lemmas. -/

lemma nearby_inner_fold (fd : Feed) (stop : String) :
    ∀ (cands : List String) (acc : List String × List (String × ℚ)),
      nearbyInv fd stop acc →
      nearbyInv fd stop (cands.foldl
        (fun (acc2 : List String × List (String × ℚ)) cand =>
          if acc2.1.contains cand || cand == stop then acc2
          else (cand :: acc2.1, acc2.2 ++ [(cand, fd.dist stop cand)]))
        acc)
| [], acc, h => h
| cand :: rest, acc, h => by
  simp only [List.foldl_cons]
  apply nearby_inner_fold fd stop rest
  by_cases hc : (acc.1.contains cand || cand == stop) = true
  · rw [if_pos hc]; exact h
  · rw [if_neg hc]
    simp only [Bool.or_eq_true, not_or, Bool.not_eq_true] at hc
    have hnm : cand ∉ acc.1 := by simpa using hc.1
    have hns : cand ≠ stop := by simpa using hc.2
    obtain ⟨hmem, hself, hdist⟩ := h.2
    refine ⟨?_, ?_, ?_, ?_⟩
    · simp only [List.map_append, h.1, List.reverse_cons, List.map_cons,
        List.map_nil]
    · exact List.nodup_cons.mpr ⟨hnm, hmem⟩
    · intro h2
      rcases List.mem_cons.mp h2 with h2 | h2
      · exact hns h2.symm
      · exact hself h2
    · intro cd hcd
      rcases List.mem_append.mp hcd with h2 | h2
      · exact hdist cd h2
      · rcases List.mem_singleton.mp h2 with h3
        subst h3; rfl

lemma nearby_outer_fold (fd : Feed) (stop : String) :
    ∀ (cells : List (ℤ × ℤ)) (acc : List String × List (String × ℚ)),
      nearbyInv fd stop acc →
      nearbyInv fd stop (cells.foldl
        (fun (acc : List String × List (String × ℚ)) cell =>
          (gridAt fd cell).foldl
            (fun (acc2 : List String × List (String × ℚ)) cand =>
              if acc2.1.contains cand || cand == stop then acc2
              else (cand :: acc2.1, acc2.2 ++ [(cand, fd.dist stop cand)]))
            acc)
        acc)
| [], acc, h => h
| cell :: rest, acc, h => by
  simp only [List.foldl_cons]
  exact nearby_outer_fold fd stop rest _ (nearby_inner_fold fd stop _ acc h)

/-- The three true guarantees of the raw spatial query: deduplicated
candidates, never the query stop itself, true haversine distances. -/
lemma nearby_props (fd : Feed) (stop : String) (radius : ℚ) :
    ((nearby fd stop radius).map Prod.fst).Nodup ∧
      (∀ cd ∈ nearby fd stop radius, cd.1 ≠ stop) ∧
      ∀ cd ∈ nearby fd stop radius, cd.2 = fd.dist stop cd.1 := by
  have h0 : nearbyInv fd stop ([], []) := by
    refine ⟨rfl, List.nodup_nil, by simp, by simp⟩
  have h : nearbyInv fd stop (nearbyFull fd stop radius) := by
    apply nearby_outer_fold fd stop _ _ h0
  obtain ⟨hmap, hnodup, hself, hdist⟩ := h
  refine ⟨?_, ?_, hdist⟩
  · show ((nearbyFull fd stop radius).2.map Prod.fst).Nodup
    rw [hmap]
    exact List.nodup_reverse.mpr hnodup
  · intro cd hcd
    intro heq
    apply hself
    have h2 : cd.1 ∈ (nearbyFull fd stop radius).2.map Prod.fst :=
      List.mem_map_of_mem _ hcd
    rw [hmap, List.mem_reverse] at h2
    rw [heq] at h2
    exact h2

/-! Stable-sort membership. -/

lemma mem_insSorted (lt : α → α → Bool) (x y : α) :
    ∀ (l : List α), y ∈ insSorted lt x l ↔ y = x ∨ y ∈ l
| [] => by simp [insSorted]
| z :: zs => by
  simp only [insSorted]
  by_cases hc : lt x z = true
  · rw [if_pos hc]
    simp [List.mem_cons]
  · rw [if_neg hc]
    simp only [List.mem_cons, mem_insSorted lt x y zs]
    tauto

lemma mem_sortFold (lt : α → α → Bool) (y : α) :
    ∀ (l : List α) (acc : List α),
      y ∈ l.foldl (fun acc x => insSorted lt x acc) acc ↔ y ∈ acc ∨ y ∈ l
| [], acc => by simp
| x :: rest, acc => by
  simp only [List.foldl_cons]
  rw [mem_sortFold lt y rest]
  rw [mem_insSorted]
  simp [List.mem_cons]
  tauto

lemma mem_sortByLt (lt : α → α → Bool) (y : α) (l : List α) :
    y ∈ sortByLt lt l ↔ y ∈ l := by
  unfold sortByLt
  rw [mem_sortFold]
  simp

lemma mem_rowsAtStop {fd : Feed} {s : String} {r : StopTimeRow} :
    r ∈ rowsAtStop fd s ↔ r ∈ fd.stopTimes ∧ r.stop_id = s := by
  unfold rowsAtStop
  rw [mem_sortByLt]
  rw [List.mem_filter]
  simp

lemma mem_tripRows {fd : Feed} {tid : String} {r : StopTimeRow} :
    r ∈ tripRows fd tid ↔ r ∈ fd.stopTimes ∧ r.trip_id = tid := by
  unfold tripRows
  rw [mem_sortByLt]
  rw [List.mem_filter]
  simp

/-! Expansion-spec membership characterisations. -/

lemma mem_walkSpecs {fd : Feed} {cur : String} {t a : ℤ} {s : PushSpec} :
    s ∈ walkSpecs fd cur t a ↔
      ∃ we ∈ walkEdgesFrom fd cur,
        s = ⟨a + we.dur, t + we.dur, we.toStop,
          .walk we.src cur we.toStop we.dur t (t + we.dur) none⟩ := by
  unfold walkSpecs
  rw [List.mem_map]
  constructor
  · rintro ⟨we, hwe, rfl⟩
    exact ⟨we, hwe, rfl⟩
  · rintro ⟨we, hwe, rfl⟩
    exact ⟨we, hwe, rfl⟩

lemma mem_geoSpecs {fd : Feed} {cfg : Config} {cur : String} {t a : ℤ}
    {s : PushSpec} :
    s ∈ geoSpecs fd cfg cur t a ↔
      ∃ c d, (c, d) ∈ nearby fd cur (maxWalkRadius cfg) ∧
        ¬ maxWalkRadius cfg < d ∧
        (providedPairs fd).contains (cur, c) = false ∧
        geoDur cfg d ≤ cfg.maxWalkTimeS ∧
        s = ⟨a + geoDur cfg d, t + geoDur cfg d, c,
          .walk .geo cur c (geoDur cfg d) t (t + geoDur cfg d)
            (some (roundQ d))⟩ := by
  unfold geoSpecs
  rw [List.mem_filterMap]
  constructor
  · rintro ⟨cd, hcd, hf⟩
    split at hf
    next hr => cases hf
    next hr =>
      split at hf
      next hp => cases hf
      next hp =>
        split at hf
        next hw =>
          cases hf
          exact ⟨cd.1, cd.2, hcd, hr, by simpa using hp, hw, rfl⟩
        next hw => cases hf
  · rintro ⟨c, d, hcd, hr, hp, hw, rfl⟩
    refine ⟨(c, d), hcd, ?_⟩
    rw [if_neg hr]
    have hp2 : ¬ ((providedPairs fd).contains (cur, c) = true) := by
      rw [hp]; simp
    rw [if_neg hp2]
    rw [if_pos hw]

lemma mem_rideSpecs {fd : Feed} {cur : String} {t a : ℤ} {s : PushSpec} :
    s ∈ rideSpecs fd cur t a ↔
      ∃ r1 dep r2 arr, r1 ∈ fd.stopTimes ∧ r1.stop_id = cur ∧
        depSec r1 = some dep ∧ t ≤ dep ∧
        r2 ∈ fd.stopTimes ∧ r2.trip_id = r1.trip_id ∧
        r1.stop_sequence < r2.stop_sequence ∧ arrSec r2 = some arr ∧
        s = ⟨a + ((dep - t) + (arr - dep)), arr, r2.stop_id,
          .ride cur r2.stop_id r1.trip_id (dep - t) (arr - dep) dep arr⟩ := by
  unfold rideSpecs
  rw [List.mem_flatMap]
  constructor
  · rintro ⟨r1, hr1, hs⟩
    rw [List.mem_filter] at hr1
    obtain ⟨hr1m, hr1p⟩ := hr1
    rw [mem_rowsAtStop] at hr1m
    have hdep : ∃ dep, depSec r1 = some dep ∧ t ≤ dep := by
      split at hr1p
      next dep hd => exact ⟨dep, hd, by simpa using hr1p⟩
      next hd => cases hr1p
    obtain ⟨dep, hd, htd⟩ := hdep
    rw [hd] at hs
    rw [List.mem_filterMap] at hs
    obtain ⟨r2, hr2, hg⟩ := hs
    rw [List.mem_filter] at hr2
    obtain ⟨hr2m, hr2p⟩ := hr2
    rw [mem_tripRows] at hr2m
    split at hg
    next ha => cases hg
    next arr ha =>
      cases hg
      exact ⟨r1, dep, r2, arr, hr1m.1, hr1m.2, hd, htd, hr2m.1, hr2m.2,
        by simpa using hr2p, ha, rfl⟩
  · rintro ⟨r1, dep, r2, arr, h1, h2, h3, h4, h5, h6, h7, h8, rfl⟩
    refine ⟨r1, ?_, ?_⟩
    · rw [List.mem_filter]
      refine ⟨mem_rowsAtStop.mpr ⟨h1, h2⟩, ?_⟩
      rw [h3]
      simpa using h4
    · rw [h3]
      rw [List.mem_filterMap]
      refine ⟨r2, ?_, ?_⟩
      · rw [List.mem_filter]
        refine ⟨mem_tripRows.mpr ⟨h5, h6⟩, by simpa using h7⟩
      · rw [h8]

/-! Soundness and completeness of the expansion with respect to the
abstract step relation. -/

lemma expand_sound {fd : Feed} {cfg : Config} {v : String} {t a : ℤ}
    {s : PushSpec} (h : s ∈ expandSpecs fd cfg v t a) :
    ∃ d, StepRel fd cfg v t s.dest d ∧ s.accum = a + d ∧ s.arr = t + d := by
  unfold expandSpecs at h
  rcases List.mem_append.mp h with h | h
  · rcases List.mem_append.mp h with h | h
    · obtain ⟨we, hwe, rfl⟩ := mem_walkSpecs.mp h
      exact ⟨we.dur, StepRel.walk v t we hwe, rfl, rfl⟩
    · obtain ⟨c, d, hcd, hr, hp, hw, rfl⟩ := mem_geoSpecs.mp h
      exact ⟨geoDur cfg d, StepRel.geo v t c d hcd hr hp hw, rfl, rfl⟩
  · obtain ⟨r1, dep, r2, arr, h1, h2, h3, h4, h5, h6, h7, h8, rfl⟩ :=
      mem_rideSpecs.mp h
    refine ⟨(dep - t) + (arr - dep),
      StepRel.ride v t r1 r2 dep arr h1 h2 h3 h4 h5 h6 h7 h8, rfl, ?_⟩
    show arr = t + ((dep - t) + (arr - dep))
    ring

lemma expand_complete {fd : Feed} {cfg : Config} {v : String} {t a : ℤ}
    {w : String} {d : ℤ} (h : StepRel fd cfg v t w d) :
    ∃ s ∈ expandSpecs fd cfg v t a, s.dest = w ∧ s.accum = a + d := by
  unfold expandSpecs
  cases h with
  | walk we hwe =>
    refine ⟨_, List.mem_append_left _ (List.mem_append_left _
      (mem_walkSpecs.mpr ⟨we, hwe, rfl⟩)), rfl, rfl⟩
  | geo c2 d2 hcd hr hp hw =>
    refine ⟨_, List.mem_append_left _ (List.mem_append_right _
      (mem_geoSpecs.mpr ⟨w, d2, hcd, hr, hp, hw, rfl⟩)), rfl, rfl⟩
  | ride r1 r2 dep arr h1 h2 h3 h4 h5 h6 h7 h8 =>
    refine ⟨_, List.mem_append_right _
      (mem_rideSpecs.mpr ⟨r1, dep, r2, arr, h1, h2, h3, h4, h5, h6, h7, h8,
        rfl⟩), rfl, rfl⟩

lemma feedConsistent_spec {fd : Feed} (h : FeedConsistent fd)
    {r1 r2 : StopTimeRow} (h1 : r1 ∈ fd.stopTimes) (h2 : r2 ∈ fd.stopTimes)
    (ht : r1.trip_id = r2.trip_id) (hs : r1.stop_sequence < r2.stop_sequence)
    {dep arr : ℤ} (hd : depSec r1 = some dep) (ha : arrSec r2 = some arr) :
    dep ≤ arr := by
  have h3 := List.all_eq_true.mp h r1 h1
  have h4 := List.all_eq_true.mp h3 r2 h2
  rw [Bool.or_eq_true] at h4
  rcases h4 with h4 | h4
  · exfalso
    simp [ht, hs] at h4
  · unfold depOkB at h4
    rw [hd, ha] at h4
    simpa using h4

/-- Under feed consistency every step has a non-negative elapsed
increment (walks are at least 30 s; rides wait then move forward). -/
lemma stepRel_nonneg {fd : Feed} {cfg : Config} {v : String} {t : ℤ}
    {w : String} {d : ℤ} (hfc : FeedConsistent fd)
    (h : StepRel fd cfg v t w d) : 0 ≤ d := by
  cases h with
  | walk we hwe =>
    have := walkEdgesAll_dur (walkEdgesFrom_sub hwe).1
    omega
  | geo c dq hcd hr hp hw =>
    have : (30 : ℤ) ≤ geoDur cfg dq := le_max_left _ _
    omega
  | ride r1 r2 dep arr h1 h2 h3 h4 h5 h6 h7 h8 =>
    have := feedConsistent_spec hfc h1 h5 h6.symm h7 h3 h8
    omega

/-! Per-branch payload facts used by the log invariants. -/

lemma expand_walk_info {fd : Feed} {cfg : Config} {v : String} {t a : ℤ}
    {s : PushSpec} (h : s ∈ expandSpecs fd cfg v t a)
    {src : WSrc} {f toS : String} {w dp ar : ℤ} {dm : Option ℤ}
    (hinfo : s.info = .walk src f toS w dp ar dm) :
    30 ≤ w ∧ (src = .geo →
      ((providedPairs fd).contains (f, toS) = false ∧
        w = geoDur cfg (fd.dist f toS) ∧ f = v)) := by
  unfold expandSpecs at h
  rcases List.mem_append.mp h with h | h
  · rcases List.mem_append.mp h with h | h
    · obtain ⟨we, hwe, rfl⟩ := mem_walkSpecs.mp h
      simp only [Act.walk.injEq] at hinfo
      obtain ⟨hsrc, hf, hto, hw, _, _, _⟩ := hinfo
      obtain ⟨hall, _⟩ := walkEdgesFrom_sub hwe
      refine ⟨hw ▸ walkEdgesAll_dur hall, ?_⟩
      intro hg
      exfalso
      have hsrc2 : we.src = WSrc.geo := by rw [hsrc, hg]
      have h2 := ingest_transfers_fold_edges fd.transfers _ we hall
      rcases h2 with h2 | h2
      · have h3 := ingest_pathways_fold_edges
          (if fd.pathwaysHasCol then fd.pathways else []) ([], []) we h2
        rcases h3 with h3 | h3
        · cases h3
        · obtain ⟨_, habs, _⟩ := h3
          rw [hsrc2] at habs
          cases habs
      · obtain ⟨_, habs, _⟩ := h2
        rw [hsrc2] at habs
        cases habs
    · obtain ⟨c, d, hcd, hr, hp, hw2, rfl⟩ := mem_geoSpecs.mp h
      simp only [Act.walk.injEq] at hinfo
      obtain ⟨hsrc, hf, hto, hw, _, _, _⟩ := hinfo
      have hdist : d = fd.dist v c := (nearby_props fd v (maxWalkRadius cfg)).2.2 _ hcd
      subst hf; subst hto
      refine ⟨hw ▸ le_max_left _ _, fun _ => ⟨hp, ?_, rfl⟩⟩
      rw [← hw, hdist]
  · obtain ⟨r1, dep, r2, arr, _, _, _, _, _, _, _, _, rfl⟩ := mem_rideSpecs.mp h
    cases hinfo

lemma expand_ride_info {fd : Feed} {cfg : Config} {v : String} {t a : ℤ}
    {s : PushSpec} (h : s ∈ expandSpecs fd cfg v t a)
    {f toS tid : String} {w rideS dep arr : ℤ}
    (hinfo : s.info = .ride f toS tid w rideS dep arr) :
    ∃ r1 r2, r1 ∈ fd.stopTimes ∧ r1.stop_id = f ∧ r1.trip_id = tid ∧
      depSec r1 = some dep ∧ r2 ∈ fd.stopTimes ∧ r2.trip_id = tid ∧
      r1.stop_sequence < r2.stop_sequence ∧ r2.stop_id = toS ∧
      arrSec r2 = some arr := by
  unfold expandSpecs at h
  rcases List.mem_append.mp h with h | h
  · rcases List.mem_append.mp h with h | h
    · obtain ⟨we, hwe, rfl⟩ := mem_walkSpecs.mp h
      cases hinfo
    · obtain ⟨c, d, _, _, _, _, rfl⟩ := mem_geoSpecs.mp h
      cases hinfo
  · obtain ⟨r1, dep2, r2, arr2, h1, h2, h3, h4, h5, h6, h7, h8, rfl⟩ :=
      mem_rideSpecs.mp h
    simp only [Act.ride.injEq] at hinfo
    obtain ⟨hf, hto, htid, _, _, hdep, harr⟩ := hinfo
    subst hf; subst hto; subst htid; subst hdep; subst harr
    exact ⟨r1, r2, h1, h2, rfl, h3, h5, h6, h7, rfl, h8⟩

/-- Pushed arithmetic coherence: destination, arrival and payload agree,
and the arrival leads the accumulated elapsed by exactly `t - a`. -/
lemma expand_coherent {fd : Feed} {cfg : Config} {v : String} {t a : ℤ}
    {s : PushSpec} (h : s ∈ expandSpecs fd cfg v t a) :
    s.info.toStop = s.dest ∧ s.info.arriveSec = s.arr ∧ s.arr - t = s.accum - a := by
  unfold expandSpecs at h
  rcases List.mem_append.mp h with h | h
  · rcases List.mem_append.mp h with h | h
    · obtain ⟨we, hwe, rfl⟩ := mem_walkSpecs.mp h
      refine ⟨rfl, rfl, by ring⟩
    · obtain ⟨c, d, _, _, _, _, rfl⟩ := mem_geoSpecs.mp h
      refine ⟨rfl, rfl, by ring⟩
  · obtain ⟨r1, dep, r2, arr, _, _, _, _, _, _, _, _, rfl⟩ := mem_rideSpecs.mp h
    refine ⟨rfl, rfl, by show arr - t = a + ((dep - t) + (arr - dep)) - a; ring⟩

/-! State-machine structural lemmas. -/

lemma searchStep_cont_cases {fd : Feed} {cfg : Config} {g g' : GState}
    (h : searchStep fd cfg g = .cont g') :
    ∃ i S e, popGlobalIdx g.persons = some (i, S, e) ∧
      ¬ cfg.maxTripTimeS < e.accum ∧
      ((S.visited.contains e.info.toStop = true ∧ g' = discardStep g i S e) ∨
       (S.visited.contains e.info.toStop = false ∧
        (g.persons.set i (settlePerson S e)).all
          (fun P => (P.reached.lookup e.info.toStop).isSome) = false ∧
        g' = expandStep fd cfg g i S e)) := by
  unfold searchStep at h
  split at h
  next => cases h
  next i S e hpop =>
    split at h
    next => cases h
    next hcap =>
      split at h
      next hvis =>
        cases h
        exact ⟨i, S, e, hpop, hcap, Or.inl ⟨hvis, rfl⟩⟩
      next hvis =>
        split at h
        next => cases h
        next hall =>
          cases h
          exact ⟨i, S, e, hpop, hcap, Or.inr ⟨by simpa using hvis,
            by simpa using hall, rfl⟩⟩

lemma mem_of_mem_set {l : List Person} {i : ℕ} {x y : Person}
    (h : y ∈ l.set i x) : y ∈ l ∨ y = x := by
  rcases List.mem_or_eq_of_mem_set h with h2 | h2
  · exact Or.inl h2
  · exact Or.inr h2

lemma flatMap_set_sublist :
    ∀ (ps : List Person) (i : ℕ) (S S' : Person),
      ps.get? i = some S → S'.pq.Sublist S.pq →
      ((ps.set i S').flatMap Person.pq).Sublist (ps.flatMap Person.pq)
| [], i, S, S', h, _ => by cases h
| P :: rest, 0, S, S', h, hsub => by
  simp only [List.get?_cons_zero] at h
  cases h
  simp only [List.set, List.flatMap_cons]
  exact hsub.append_right _
| P :: rest, i + 1, S, S', h, hsub => by
  simp only [List.get?_cons_succ] at h
  simp only [List.set, List.flatMap_cons]
  exact (flatMap_set_sublist rest i S S' h hsub).append_left _

lemma flatMap_set_append_perm :
    ∀ (ps : List Person) (i : ℕ) (S : Person) (q2 : List Entry),
      ps.get? i = some S →
      ((ps.set i { S with pq := S.pq ++ q2 }).flatMap Person.pq).Perm
        ((ps.flatMap Person.pq) ++ q2)
| [], i, S, q2, h => by cases h
| P :: rest, 0, S, q2, h => by
  simp only [List.get?_cons_zero] at h
  cases h
  simp only [List.set, List.flatMap_cons, List.append_assoc]
  exact List.Perm.append_left _ List.perm_append_comm
| P :: rest, i + 1, S, q2, h => by
  simp only [List.get?_cons_succ] at h
  simp only [List.set, List.flatMap_cons, List.append_assoc]
  exact List.Perm.append_left P.pq (flatMap_set_append_perm rest i S q2 h)

/-! Log-invariant: initialisation and preservation. -/

lemma logInv_mem_le_ctr {fd : Feed} {cfg : Config} {g : GState}
    (hL : LogInv fd cfg g) {e : Entry} (h : e ∈ g.log) : e.ctr ≤ g.ctr := by
  have h2 : e.ctr ∈ g.log.map Entry.ctr := List.mem_map_of_mem _ h
  rw [hL.logctr] at h2
  have := List.mem_range'_1.mp h2
  omega

lemma logInv_pq_le_ctr {fd : Feed} {cfg : Config} {g : GState}
    (hL : LogInv fd cfg g) {e : Entry} (h : e ∈ allPq g) : e.ctr ≤ g.ctr := by
  obtain ⟨P, hP, he⟩ := List.mem_flatMap.mp h
  exact logInv_mem_le_ctr hL (hL.pqlog P hP e he)

lemma get?_set_self {α : Type _} :
    ∀ (l : List α) (i : ℕ) (x : α), i < l.length →
      (l.set i x).get? i = some x
| [], i, x, h => by simp at h
| a :: t, 0, x, _ => rfl
| a :: t, i + 1, x, h => by
  simp only [List.set, List.get?_cons_succ]
  exact get?_set_self t i x (by simpa using h)

/-- Closed form of `seedPerson`. -/
lemma seedPerson_eq (fd : Feed) (cfg : Config) (c : ℕ) (lg : List Entry)
    (label start : String) :
    seedPerson fd cfg c lg label start =
      (⟨label, start, mkEntries c (⟨0, cfg.t0, start,
          .start start cfg.t0 cfg.t0⟩ :: expandSpecs fd cfg start cfg.t0 0),
        [], [], []⟩,
       c + (⟨0, cfg.t0, start, .start start cfg.t0 cfg.t0⟩ ::
          expandSpecs fd cfg start cfg.t0 0 : List PushSpec).length,
       lg ++ mkEntries c (⟨0, cfg.t0, start, .start start cfg.t0 cfg.t0⟩ ::
          expandSpecs fd cfg start cfg.t0 0)) := by
  simp only [seedPerson, pushAll_eq, List.nil_append]

/-- Closed form of `expandStep`. -/
lemma expandStep_eq (fd : Feed) (cfg : Config) (g : GState) (i : ℕ)
    (S : Person) (e : Entry) :
    expandStep fd cfg g i S e =
      ⟨g.persons.set i { settlePerson S e with
          pq := (settlePerson S e).pq ++ mkEntries g.ctr
            (expandSpecs fd cfg e.info.toStop e.info.arriveSec e.accum) },
        g.ctr + (expandSpecs fd cfg e.info.toStop e.info.arriveSec
          e.accum).length,
        g.log ++ mkEntries g.ctr
          (expandSpecs fd cfg e.info.toStop e.info.arriveSec e.accum)⟩ := by
  simp only [expandStep, pushAll_eq]

/-- Log facts hold of every spec pushed by an expansion run at a coherent
point (`t = t0 + a`). -/
lemma expand_spec_logfacts {fd : Feed} {cfg : Config} {v : String}
    {t a : ℤ} (hta : t = cfg.t0 + a) {s : PushSpec}
    (h : s ∈ expandSpecs fd cfg v t a) :
    (s.arr = cfg.t0 + s.accum ∧ s.arr = s.info.arriveSec ∧
      s.dest = s.info.toStop) ∧
    (∀ src f toS w dp ar dm, s.info = .walk src f toS w dp ar dm →
      30 ≤ w ∧ (src = .geo →
        ((providedPairs fd).contains (f, toS) = false ∧
          w = geoDur cfg (fd.dist f toS)))) ∧
    (∀ f toS tid w rd dep arr, s.info = .ride f toS tid w rd dep arr →
      ∃ r1 r2, r1 ∈ fd.stopTimes ∧ r1.stop_id = f ∧ r1.trip_id = tid ∧
        depSec r1 = some dep ∧ r2 ∈ fd.stopTimes ∧ r2.trip_id = tid ∧
        r1.stop_sequence < r2.stop_sequence ∧ r2.stop_id = toS ∧
        arrSec r2 = some arr) := by
  obtain ⟨hto, harr, hdiff⟩ := expand_coherent h
  refine ⟨⟨by omega, harr.symm, hto.symm⟩, ?_, ?_⟩
  · intro src f toS w dp ar dm hinfo
    exact ⟨(expand_walk_info h hinfo).1,
      fun hg => ⟨((expand_walk_info h hinfo).2 hg).1,
        ((expand_walk_info h hinfo).2 hg).2.1⟩⟩
  · intro f toS tid w rd dep arr hinfo
    exact expand_ride_info h hinfo

/-- Adding freshly numbered pushes to one person's frontier, the counter
and the log preserves the log invariant. -/
lemma logInv_pushAll {fd : Feed} {cfg : Config} {ps : List Person}
    {c : ℕ} {lg : List Entry} (hL : LogInv fd cfg ⟨ps, c, lg⟩)
    {specs : List PushSpec}
    (hspecs : ∀ s ∈ specs,
      (s.arr = cfg.t0 + s.accum ∧ s.arr = s.info.arriveSec ∧
        s.dest = s.info.toStop) ∧
      (∀ src f toS w dp ar dm, s.info = .walk src f toS w dp ar dm →
        30 ≤ w ∧ (src = .geo →
          ((providedPairs fd).contains (f, toS) = false ∧
            w = geoDur cfg (fd.dist f toS)))) ∧
      (∀ f toS tid w rd dep arr, s.info = .ride f toS tid w rd dep arr →
        ∃ r1 r2, r1 ∈ fd.stopTimes ∧ r1.stop_id = f ∧ r1.trip_id = tid ∧
          depSec r1 = some dep ∧ r2 ∈ fd.stopTimes ∧ r2.trip_id = tid ∧
          r1.stop_sequence < r2.stop_sequence ∧ r2.stop_id = toS ∧
          arrSec r2 = some arr))
    {ps' : List Person}
    (hps : ∀ P ∈ ps', ∀ e ∈ P.pq, (∃ Q ∈ ps, e ∈ Q.pq) ∨ e ∈ mkEntries c specs)
    (hperm : ((ps'.flatMap Person.pq).map Entry.ctr).Nodup) :
    LogInv fd cfg ⟨ps', c + specs.length, lg ++ mkEntries c specs⟩ := by
  have hmk : ∀ e ∈ mkEntries c specs,
      ∃ s ∈ specs, e.accum = s.accum ∧ e.arr = s.arr ∧ e.dest = s.dest ∧
        e.info = s.info := fun e he => (mem_mkEntries he).2
  refine ⟨?_, ?_, ?_, ?_, ?_, hperm⟩
  · intro e he
    rcases List.mem_append.mp he with he | he
    · exact hL.arr e he
    · obtain ⟨s2, hs2, h1, h2, h3, h4⟩ := hmk e he
      obtain ⟨⟨a1, a2, a3⟩, _, _⟩ := hspecs s2 hs2
      refine ⟨by omega, ?_, ?_⟩
      · rw [h2, h4, a2]
      · rw [h3, h4, a3]
  · intro e he src f toS w dp ar dm hinfo
    rcases List.mem_append.mp he with he | he
    · exact hL.walkinfo e he src f toS w dp ar dm hinfo
    · obtain ⟨s2, hs2, h1, h2, h3, h4⟩ := hmk e he
      obtain ⟨_, hw, _⟩ := hspecs s2 hs2
      exact hw src f toS w dp ar dm (by rw [← h4, hinfo])
  · intro e he f toS tid w rd dep arr hinfo
    rcases List.mem_append.mp he with he | he
    · exact hL.rideinfo e he f toS tid w rd dep arr hinfo
    · obtain ⟨s2, hs2, h1, h2, h3, h4⟩ := hmk e he
      obtain ⟨_, _, hr⟩ := hspecs s2 hs2
      exact hr f toS tid w rd dep arr (by rw [← h4, hinfo])
  · intro P hP e he
    rcases hps P hP e he with ⟨Q, hQ, heQ⟩ | hnew
    · exact List.mem_append_left _ (hL.pqlog Q hQ e heQ)
    · exact List.mem_append_right _ hnew
  · show (lg ++ mkEntries c specs).map Entry.ctr = List.range' 1 (c + specs.length)
    have hr2 : List.range' 1 c ++ List.range' (c + 1) specs.length =
        List.range' 1 (c + specs.length) := by
      have hr := List.range'_append 1 c specs.length 1
      rw [show (1 : ℕ) + 1 * c = c + 1 from by omega] at hr
      rw [hr, Nat.add_comm]
    rw [List.map_append, hL.logctr, mkEntries_map_ctr, hr2]

/-- Counters in a fresh block exceed `c`. -/
lemma mkEntries_ctr_gt {specs : List PushSpec} {c : ℕ} {e : Entry}
    (h : e ∈ mkEntries c specs) : c < e.ctr := by
  obtain ⟨⟨k, hk, hk1, _⟩, _⟩ := mem_mkEntries h
  omega

lemma mkEntries_ctr_nodup (specs : List PushSpec) (c : ℕ) :
    ((mkEntries c specs).map Entry.ctr).Nodup := by
  rw [mkEntries_map_ctr]
  exact List.nodup_range' _ _

/-- Seeding one person preserves the log invariant. -/
lemma logInv_seed {fd : Feed} {cfg : Config} {ps : List Person} {c : ℕ}
    {lg : List Entry} (hL : LogInv fd cfg ⟨ps, c, lg⟩)
    (label start : String) :
    LogInv fd cfg ⟨ps ++ [(seedPerson fd cfg c lg label start).1],
      (seedPerson fd cfg c lg label start).2.1,
      (seedPerson fd cfg c lg label start).2.2⟩ := by
  have hspec : ∀ s ∈ (⟨0, cfg.t0, start, .start start cfg.t0 cfg.t0⟩ ::
      expandSpecs fd cfg start cfg.t0 0 : List PushSpec),
      (s.arr = cfg.t0 + s.accum ∧ s.arr = s.info.arriveSec ∧
        s.dest = s.info.toStop) ∧
      (∀ src f toS w dp ar dm, s.info = .walk src f toS w dp ar dm →
        30 ≤ w ∧ (src = .geo →
          ((providedPairs fd).contains (f, toS) = false ∧
            w = geoDur cfg (fd.dist f toS)))) ∧
      (∀ f toS tid w rd dep arr, s.info = .ride f toS tid w rd dep arr →
        ∃ r1 r2, r1 ∈ fd.stopTimes ∧ r1.stop_id = f ∧ r1.trip_id = tid ∧
          depSec r1 = some dep ∧ r2 ∈ fd.stopTimes ∧ r2.trip_id = tid ∧
          r1.stop_sequence < r2.stop_sequence ∧ r2.stop_id = toS ∧
          arrSec r2 = some arr) := by
    intro s hs
    rcases List.mem_cons.mp hs with hs | hs
    · subst hs
      refine ⟨⟨by simp, rfl, rfl⟩, ?_, ?_⟩
      · intro src f toS w dp ar dm hinfo; cases hinfo
      · intro f toS tid w rd dep arr hinfo; cases hinfo
    · exact expand_spec_logfacts (by omega) hs
  rw [seedPerson_eq]
  have hmain := @logInv_pushAll fd cfg ps c lg hL _ hspec (ps ++
      [⟨label, start, mkEntries c (⟨0, cfg.t0, start,
        .start start cfg.t0 cfg.t0⟩ :: expandSpecs fd cfg start cfg.t0 0),
        [], [], []⟩]) ?_ ?_
  · exact hmain
  · intro P hP e he
    rcases List.mem_append.mp hP with hP | hP
    · exact Or.inl ⟨P, hP, he⟩
    · rcases List.mem_singleton.mp hP with rfl
      exact Or.inr he
  · rw [List.flatMap_append]
    simp only [List.flatMap_cons, List.flatMap_nil, List.append_nil]
    rw [List.map_append]
    apply List.Nodup.append
    · exact hL.pqctrNodup
    · exact mkEntries_ctr_nodup _ _
    · intro x hx hy
      obtain ⟨e1, he1, rfl⟩ := List.mem_map.mp hx
      obtain ⟨e2, he2, hctr⟩ := List.mem_map.mp hy
      have hle : e1.ctr ≤ c := logInv_pq_le_ctr hL he1
      have hgt : c < e2.ctr := mkEntries_ctr_gt he2
      omega

/-- The log invariant holds of the freshly seeded initial state. -/
lemma logInv_init (fd : Feed) (cfg : Config) :
    LogInv fd cfg (initState fd cfg) := by
  suffices h : ∀ (people : List (String × String))
      (acc : List Person × ℕ × List Entry),
      LogInv fd cfg ⟨acc.1, acc.2.1, acc.2.2⟩ →
      LogInv fd cfg ⟨(people.foldl (fun (acc : List Person × ℕ × List Entry) pl =>
        let s2 := seedPerson fd cfg acc.2.1 acc.2.2 pl.1 pl.2
        (acc.1 ++ [s2.1], s2.2.1, s2.2.2)) acc).1,
        (people.foldl (fun (acc : List Person × ℕ × List Entry) pl =>
          let s2 := seedPerson fd cfg acc.2.1 acc.2.2 pl.1 pl.2
          (acc.1 ++ [s2.1], s2.2.1, s2.2.2)) acc).2.1,
        (people.foldl (fun (acc : List Person × ℕ × List Entry) pl =>
          let s2 := seedPerson fd cfg acc.2.1 acc.2.2 pl.1 pl.2
          (acc.1 ++ [s2.1], s2.2.1, s2.2.2)) acc).2.2⟩ by
    have h0 : LogInv fd cfg ⟨[], 0, []⟩ := by
      refine ⟨by simp, by simp, by simp, by simp, by simp, by simp [allPq]⟩
    exact h cfg.people ([], 0, []) h0
  intro people
  induction people with
  | nil => intro acc h; exact h
  | cons pl rest ih =>
    intro acc h
    simp only [List.foldl_cons]
    exact ih _ (logInv_seed h pl.1 pl.2)

/-- One continuing search step preserves the log invariant. -/
lemma logInv_step {fd : Feed} {cfg : Config} {g g' : GState}
    (hL : LogInv fd cfg g) (h : searchStep fd cfg g = .cont g') :
    LogInv fd cfg g' := by
  obtain ⟨i, S, e, hpop, hcap, hbranch⟩ := searchStep_cont_cases h
  obtain ⟨hget, hfm, hglobal⟩ := popGlobalIdx_spec hpop
  have heS : e ∈ S.pq := (findMin_spec hfm).1
  have hSmem : S ∈ g.persons := List.get?_mem hget
  have heLog : e ∈ g.log := hL.pqlog S hSmem e heS
  rcases hbranch with ⟨hvis, rfl⟩ | ⟨hvis, hall, rfl⟩
  · -- discard: only the popped entry disappears
    refine ⟨hL.arr, hL.walkinfo, hL.rideinfo, ?_, hL.logctr, ?_⟩
    · intro P hP e2 he2
      rcases mem_of_mem_set hP with hP | rfl
      · exact hL.pqlog P hP e2 he2
      · exact hL.pqlog S hSmem e2 ((S.pq.erase_sublist e).subset he2)
    · show ((allPq (discardStep g i S e)).map Entry.ctr).Nodup
      have hsub := flatMap_set_sublist g.persons i S
        { S with pq := S.pq.erase e } hget (S.pq.erase_sublist e)
      exact hL.pqctrNodup.sublist (hsub.map Entry.ctr)
  · -- settle and expand
    have hta : e.info.arriveSec = cfg.t0 + e.accum := by
      obtain ⟨a1, a2, _⟩ := hL.arr e heLog
      omega
    have hspecs := fun (s : PushSpec)
        (hs : s ∈ expandSpecs fd cfg e.info.toStop e.info.arriveSec e.accum) =>
      @expand_spec_logfacts fd cfg e.info.toStop _ _ hta _ hs
    have hilen : i < g.persons.length := by
      rcases List.get?_eq_some.mp hget with ⟨hlt, _⟩
      exact hlt
    have hgetMid : (g.persons.set i (settlePerson S e)).get? i =
        some (settlePerson S e) :=
      get?_set_self _ _ _ (by simpa using hilen)
    rw [expandStep_eq]
    apply logInv_pushAll hL hspecs
    · intro P hP e2 he2
      rcases mem_of_mem_set hP with hP | rfl
      · exact Or.inl ⟨P, hP, he2⟩
      · rcases List.mem_append.mp he2 with he2 | he2
        · exact Or.inl ⟨S, hSmem, (S.pq.erase_sublist e).subset he2⟩
        · exact Or.inr he2
    · have hperm2 := flatMap_set_append_perm
        (g.persons.set i (settlePerson S e)) i (settlePerson S e)
        (mkEntries g.ctr (expandSpecs fd cfg e.info.toStop
          e.info.arriveSec e.accum)) hgetMid
      rw [List.set_set] at hperm2
      have hmid : (((g.persons.set i (settlePerson S e)).flatMap
          Person.pq).map Entry.ctr).Nodup := by
        have hsub := flatMap_set_sublist g.persons i S (settlePerson S e)
          hget (S.pq.erase_sublist e)
        exact hL.pqctrNodup.sublist (hsub.map Entry.ctr)
      have hNodup : ((((g.persons.set i (settlePerson S e)).flatMap
          Person.pq) ++ mkEntries g.ctr (expandSpecs fd cfg e.info.toStop
            e.info.arriveSec e.accum)).map Entry.ctr).Nodup := by
        rw [List.map_append]
        apply List.Nodup.append hmid (mkEntries_ctr_nodup _ _)
        intro x hx hy
        obtain ⟨e1, he1, rfl⟩ := List.mem_map.mp hx
        obtain ⟨e2, he2, hctr⟩ := List.mem_map.mp hy
        obtain ⟨P1, hP1, heP1⟩ := List.mem_flatMap.mp he1
        have he1g : e1 ∈ allPq g := by
          rcases mem_of_mem_set hP1 with hP1 | rfl
          · exact List.mem_flatMap.mpr ⟨P1, hP1, heP1⟩
          · exact List.mem_flatMap.mpr ⟨S, hSmem,
              (S.pq.erase_sublist e).subset heP1⟩
        have hle : e1.ctr ≤ g.ctr := logInv_pq_le_ctr hL he1g
        have hgt : g.ctr < e2.ctr := mkEntries_ctr_gt he2
        omega
      exact ((hperm2.map Entry.ctr).nodup_iff).mpr hNodup

/-- Every reachable state satisfies the log invariant. -/
lemma reachable_logInv {fd : Feed} {cfg : Config} {g : GState}
    (h : Reachable fd cfg g) : LogInv fd cfg g := by
  induction h with
  | init => exact logInv_init fd cfg
  | next g g2 hre hstep ih => exact logInv_step ih hstep

/-! Support for the meeting-test characterisation. -/

lemma get?_set_ne {α : Type _} :
    ∀ (l : List α) (i j : ℕ) (x : α), i ≠ j →
      (l.set i x).get? j = l.get? j
| [], _, _, _, _ => by simp
| a :: t, 0, 0, x, h => absurd rfl h
| a :: t, 0, j + 1, x, _ => by simp [List.set]
| a :: t, i + 1, 0, x, _ => by simp [List.set]
| a :: t, i + 1, j + 1, x, h => by
  simp only [List.set, List.get?_cons_succ]
  exact get?_set_ne t i j x (by omega)

lemma lookup_cons_self {k : String} {v : ℤ × ℤ}
    {l : List (String × ℤ × ℤ)} : (( k, v) :: l).lookup k = some v := by
  simp [List.lookup]

lemma lookup_cons_ne {k k2 : String} {v : ℤ × ℤ}
    {l : List (String × ℤ × ℤ)} (h : k2 ≠ k) :
    ((k, v) :: l).lookup k2 = l.lookup k2 := by
  simp only [List.lookup]
  have hb : (k2 == k) = false := by simpa using h
  rw [hb]

/-- Settling updates `visited` and `reached` together. -/
lemma settle_vis_reached {S : Person} {e : Entry}
    (h : ∀ s2, s2 ∈ S.visited ↔ (S.reached.lookup s2).isSome)
    (hvis : S.visited.contains e.info.toStop = false) :
    ∀ s2, s2 ∈ (settlePerson S e).visited ↔
      ((settlePerson S e).reached.lookup s2).isSome := by
  have hnm : e.info.toStop ∉ S.visited := by simpa using hvis
  have hnone : (S.reached.lookup e.info.toStop).isSome = false := by
    cases hl : (S.reached.lookup e.info.toStop).isSome
    · rfl
    · exact absurd ((h _).mpr hl) hnm
  intro s2
  show s2 ∈ e.info.toStop :: S.visited ↔ _
  have hreached : (settlePerson S e).reached =
      (e.info.toStop, (e.info.arriveSec, e.accum)) :: S.reached := by
    show (if (S.reached.lookup e.info.toStop).isSome then S.reached
      else (e.info.toStop, (e.info.arriveSec, e.accum)) :: S.reached) = _
    rw [hnone]
    simp
  rw [hreached]
  by_cases hs : s2 = e.info.toStop
  · subst hs
    simp only [List.mem_cons, true_or, lookup_cons_self]
    simp
  · rw [lookup_cons_ne hs]
    simp only [List.mem_cons]
    constructor
    · rintro (h2 | h2)
      · exact absurd h2 hs
      · exact (h s2).mp h2
    · intro h2
      exact Or.inr ((h s2).mpr h2)

/-- Members of the seeding fold are either carried over or freshly
seeded persons. -/
lemma initFold_mem (fd : Feed) (cfg : Config) :
    ∀ (people : List (String × String))
      (acc : List Person × ℕ × List Entry) (P : Person),
      P ∈ (people.foldl (fun (acc : List Person × ℕ × List Entry) pl =>
        let s2 := seedPerson fd cfg acc.2.1 acc.2.2 pl.1 pl.2
        (acc.1 ++ [s2.1], s2.2.1, s2.2.2)) acc).1 →
      P ∈ acc.1 ∨ ∃ pl ∈ people, ∃ c lg,
        P = (seedPerson fd cfg c lg pl.1 pl.2).1
| [], acc, P => fun h => Or.inl h
| pl :: rest, acc, P => by
  intro h
  simp only [List.foldl_cons] at h
  rcases initFold_mem fd cfg rest _ P h with h2 | h2
  · rcases List.mem_append.mp h2 with h3 | h3
    · exact Or.inl h3
    · rcases List.mem_singleton.mp h3 with rfl
      exact Or.inr ⟨pl, List.mem_cons_self _ _, acc.2.1, acc.2.2, rfl⟩
  · obtain ⟨pl2, hpl2, c, lg, hP⟩ := h2
    exact Or.inr ⟨pl2, List.mem_cons_of_mem _ hpl2, c, lg, hP⟩

/-- Persons of the freshly seeded state have empty maps, and carry a
configured label and start stop. -/
lemma initState_persons_shape (fd : Feed) (cfg : Config) :
    ∀ P ∈ (initState fd cfg).persons, P.visited = [] ∧ P.reached = [] ∧
      P.parent = [] ∧
      ∃ pl ∈ cfg.people, P.label = pl.1 ∧ P.startStop = pl.2 := by
  intro P hP
  have h := initFold_mem fd cfg cfg.people ([], 0, []) P hP
  rcases h with h | h
  · cases h
  · obtain ⟨pl, hpl, c, lg, rfl⟩ := h
    rw [seedPerson_eq]
    exact ⟨rfl, rfl, rfl, pl, hpl, rfl, rfl⟩

/-- Every reachable state couples `visited` with the domain of
`reached_stop_first`. -/
lemma reachable_visInv {fd : Feed} {cfg : Config} {g : GState}
    (h : Reachable fd cfg g) :
    ∀ P ∈ g.persons, ∀ s2, s2 ∈ P.visited ↔ (P.reached.lookup s2).isSome := by
  induction h with
  | init =>
    intro P hP s2
    obtain ⟨hv, hr, _, _⟩ := initState_persons_shape fd cfg P hP
    rw [hv, hr]
    simp [List.lookup]
  | next g g2 hre hstep ih =>
    obtain ⟨i, S, e, hpop, hcap, hbranch⟩ := searchStep_cont_cases hstep
    obtain ⟨hget, hfm, _⟩ := popGlobalIdx_spec hpop
    have hSmem : S ∈ g.persons := List.get?_mem hget
    rcases hbranch with ⟨hvis, rfl⟩ | ⟨hvis, hall, rfl⟩
    · intro P hP
      rcases mem_of_mem_set hP with hP | rfl
      · exact ih P hP
      · exact ih S hSmem
    · rw [expandStep_eq]
      intro P hP
      rcases mem_of_mem_set hP with hP | rfl
      · exact ih P hP
      · exact settle_vis_reached (ih S hSmem) hvis

/-- Specification of the Python-style list maximum. -/
lemma maxListZ_spec :
    ∀ (l : List ℤ) (m : ℤ), maxListZ l = some m →
      m ∈ l ∧ ∀ x ∈ l, x ≤ m := by
  have hfold : ∀ (l : List ℤ) (a m : ℤ), l.foldl max a = m →
      (m = a ∨ m ∈ l) ∧ a ≤ m ∧ ∀ x ∈ l, x ≤ m := by
    intro l
    induction l with
    | nil =>
      intro a m h
      simp only [List.foldl_nil] at h
      exact ⟨Or.inl h.symm, le_of_eq h, by simp⟩
    | cons x rest ih =>
      intro a m h
      simp only [List.foldl_cons] at h
      obtain ⟨hmem, hle, hall⟩ := ih (max a x) m h
      refine ⟨?_, le_trans (le_max_left a x) hle, ?_⟩
      · rcases hmem with hmem | hmem
        · rcases le_total a x with hax | hax
          · subst hmem
            rw [max_eq_right hax]
            exact Or.inr (List.mem_cons_self _ _)
          · subst hmem
            rw [max_eq_left hax]
            exact Or.inl rfl
        · exact Or.inr (List.mem_cons_of_mem _ hmem)
      · intro y hy
        rcases List.mem_cons.mp hy with hy | hy
        · subst hy
          exact le_trans (le_max_right a y) hle
        · exact hall y hy
  intro l m h
  cases l with
  | nil => cases h
  | cons x rest =>
    simp only [maxListZ, Option.some.injEq] at h
    obtain ⟨hmem, hle, hall⟩ := hfold rest x m h
    refine ⟨?_, ?_⟩
    · rcases hmem with hmem | hmem
      · subst hmem; exact List.mem_cons_self _ _
      · exact List.mem_cons_of_mem _ hmem
    · intro y hy
      rcases List.mem_cons.mp hy with hy | hy
      · subst hy; exact hle
      · exact hall y hy

/-- Specification of the Python-style list minimum. -/
lemma minListZ_spec :
    ∀ (l : List ℤ) (m : ℤ), minListZ l = some m →
      m ∈ l ∧ ∀ x ∈ l, m ≤ x := by
  have hfold : ∀ (l : List ℤ) (a m : ℤ), l.foldl min a = m →
      (m = a ∨ m ∈ l) ∧ m ≤ a ∧ ∀ x ∈ l, m ≤ x := by
    intro l
    induction l with
    | nil =>
      intro a m h
      simp only [List.foldl_nil] at h
      exact ⟨Or.inl h.symm, le_of_eq h.symm, by simp⟩
    | cons x rest ih =>
      intro a m h
      simp only [List.foldl_cons] at h
      obtain ⟨hmem, hle, hall⟩ := ih (min a x) m h
      refine ⟨?_, le_trans hle (min_le_left a x), ?_⟩
      · rcases hmem with hmem | hmem
        · rcases le_total a x with hax | hax
          · subst hmem
            rw [min_eq_left hax]
            exact Or.inl rfl
          · subst hmem
            rw [min_eq_right hax]
            exact Or.inr (List.mem_cons_self _ _)
        · exact Or.inr (List.mem_cons_of_mem _ hmem)
      · intro y hy
        rcases List.mem_cons.mp hy with hy | hy
        · subst hy
          exact le_trans hle (min_le_right a y)
        · exact hall y hy
  intro l m h
  cases l with
  | nil => cases h
  | cons x rest =>
    simp only [minListZ, Option.some.injEq] at h
    obtain ⟨hmem, hle, hall⟩ := hfold rest x m h
    refine ⟨?_, ?_⟩
    · rcases hmem with hmem | hmem
      · subst hmem; exact List.mem_cons_self _ _
      · exact List.mem_cons_of_mem _ hmem
    · intro y hy
      rcases List.mem_cons.mp hy with hy | hy
      · subst hy; exact hle
      · exact hall y hy

lemma maxListZ_isSome {l : List ℤ} (h : l ≠ []) : (maxListZ l).isSome := by
  cases l with
  | nil => exact absurd rfl h
  | cons x rest => rfl

lemma minListZ_isSome {l : List ℤ} (h : l ≠ []) : (minListZ l).isSome := by
  cases l with
  | nil => exact absurd rfl h
  | cons x rest => rfl

/-! Optimality machinery (conditional on feed consistency). -/

/-- When the destination is new, settling prepends one `reached` record. -/
lemma settle_reached_eq {S : Person} {e : Entry}
    (h : ∀ s2, s2 ∈ S.visited ↔ (S.reached.lookup s2).isSome)
    (hvis : S.visited.contains e.info.toStop = false) :
    (settlePerson S e).reached =
      (e.info.toStop, (e.info.arriveSec, e.accum)) :: S.reached := by
  have hnm : e.info.toStop ∉ S.visited := by simpa using hvis
  have hnone : (S.reached.lookup e.info.toStop).isSome = false := by
    cases hl : (S.reached.lookup e.info.toStop).isSome
    · rfl
    · exact absurd ((h _).mpr hl) hnm
  show (if (S.reached.lookup e.info.toStop).isSome then S.reached
    else (e.info.toStop, (e.info.arriveSec, e.accum)) :: S.reached) = _
  rw [hnone]
  simp

/-- A step available at a later elapsed time is covered by an expansion
performed at the settle time, at no larger total cost. -/
lemma stepRel_shift {fd : Feed} {cfg : Config} {v : String} {k c : ℤ}
    (hkc : k ≤ c) {w : String} {d : ℤ}
    (h : StepRel fd cfg v (cfg.t0 + c) w d) :
    ∃ d2, StepRel fd cfg v (cfg.t0 + k) w d2 ∧ k + d2 ≤ c + d := by
  cases h with
  | walk we hwe =>
    exact ⟨we.dur, StepRel.walk v _ we hwe, by omega⟩
  | geo c2 d2 hcd hr hp hw =>
    exact ⟨geoDur cfg d2, StepRel.geo v _ w d2 hcd hr hp hw, by omega⟩
  | ride r1 r2 dep arr h1 h2 h3 h4 h5 h6 h7 h8 =>
    refine ⟨(dep - (cfg.t0 + k)) + (arr - dep),
      StepRel.ride v _ r1 r2 dep arr h1 h2 h3 (by omega) h5 h6 h7 h8, by omega⟩

/-- Any generatable path is covered by the settled map or some frontier
entry of no larger accumulated elapsed. -/
lemma pathCover {fd : Feed} {cfg : Config} (hfc : FeedConsistent fd)
    {P : Person} (hP : PersonInv fd cfg P) :
    ∀ p c, Reaches fd cfg P.startStop p c →
      (∃ pr : ℤ × ℤ, P.reached.lookup p = some pr ∧ pr.2 ≤ c) ∨
      (∃ x ∈ P.pq, x.accum ≤ c) := by
  intro p c h
  induction h with
  | base =>
    rcases hP.seedCov with ⟨x, hx, _, hle⟩ | ⟨pr, hpr, hle⟩
    · exact Or.inr ⟨x, hx, hle⟩
    · exact Or.inl ⟨pr, hpr, hle⟩
  | step v c2 w d hreach hstep ih =>
    have hd : 0 ≤ d := stepRel_nonneg hfc hstep
    rcases ih with ⟨pr, hpr, hle⟩ | ⟨x, hx, hle⟩
    · have hrel := hP.relaxed v pr.1 pr.2 hpr c2 hle w d hstep
      rcases hrel with ⟨x, hx, _, hacc⟩ | ⟨pr2, hpr2, hle2⟩
      · exact Or.inr ⟨x, hx, hacc⟩
      · exact Or.inl ⟨pr2, hpr2, hle2⟩
    · exact Or.inr ⟨x, hx, by omega⟩

/-- Every seeded person satisfies the per-person invariant. -/
lemma personInv_seed (fd : Feed) (cfg : Config) (c : ℕ) (lg : List Entry)
    (label start : String) :
    PersonInv fd cfg (seedPerson fd cfg c lg label start).1 := by
  rw [seedPerson_eq]
  have hmk : ∀ e ∈ mkEntries c (⟨0, cfg.t0, start,
      .start start cfg.t0 cfg.t0⟩ :: expandSpecs fd cfg start cfg.t0 0),
      ∃ s ∈ (⟨0, cfg.t0, start, .start start cfg.t0 cfg.t0⟩ ::
        expandSpecs fd cfg start cfg.t0 0 : List PushSpec),
        e.accum = s.accum ∧ e.arr = s.arr ∧ e.dest = s.dest ∧
          e.info = s.info := fun e he => (mem_mkEntries he).2
  refine ⟨?_, ?_, ?_, ?_, ?_, ?_, ?_⟩
  · intro e he
    obtain ⟨s2, hs2, h1, h2, h3, h4⟩ := hmk e he
    rcases List.mem_cons.mp hs2 with hs2 | hs2
    · subst hs2
      simp only at h1 h2 h3 h4
      rw [h3, h4, h2]
      refine ⟨rfl, rfl, by omega⟩
    · obtain ⟨hto, harr, hdiff⟩ := expand_coherent hs2
      refine ⟨by rw [h3, h4, hto], by rw [h2, h4, harr], by omega⟩
  · intro s2
    simp [List.lookup]
  · intro s2 ta el h
    simp [List.lookup] at h
  · intro s2 ta el h
    simp [List.lookup] at h
  · intro s2 ta el h
    simp [List.lookup] at h
  · left
    refine ⟨mkEntry (c + 1) ⟨0, cfg.t0, start, .start start cfg.t0 cfg.t0⟩,
      ?_, rfl, le_refl 0⟩
    show _ ∈ mkEntries c (_ :: _)
    rw [mkEntries]
    exact List.mem_cons_self _ _
  · intro s2 ta el h
    simp [List.lookup] at h

/-- The global per-person invariant holds at the initial state. -/
lemma gInv_init (fd : Feed) (cfg : Config) : GInv fd cfg (initState fd cfg) := by
  intro P hP
  have h := initFold_mem fd cfg cfg.people ([], 0, []) P hP
  rcases h with h | h
  · cases h
  · obtain ⟨pl, hpl, c, lg, rfl⟩ := h
    exact personInv_seed fd cfg c lg pl.1 pl.2

/-- Discarding an already-visited pop preserves the person invariant. -/
lemma personInv_discard {fd : Feed} {cfg : Config} {S : Person} {e : Entry}
    (hS : PersonInv fd cfg S) (heS : e ∈ S.pq)
    (hvis : S.visited.contains e.info.toStop = true) :
    PersonInv fd cfg { S with pq := S.pq.erase e } := by
  have herase : ∀ x, x ∈ S.pq.erase e → x ∈ S.pq :=
    fun x hx => (S.pq.erase_sublist e).subset hx
  obtain ⟨hdest, _, _⟩ := hS.coher e heS
  have hmem : e.info.toStop ∈ S.visited := by simpa using hvis
  have hsome := (hS.vis_reached _).mp hmem
  obtain ⟨pr, hpr⟩ := Option.isSome_iff_exists.mp hsome
  have hprM := hS.mono e.info.toStop pr.1 pr.2 (by rw [hpr]) e heS
  refine ⟨?_, hS.vis_reached, ?_, hS.reached_arr, ?_, ?_, hS.opt⟩
  · intro x hx; exact hS.coher x (herase x hx)
  · intro s2 ta el h x hx; exact hS.mono s2 ta el h x (herase x hx)
  · intro s2 ta el h c hle w d hstep
    rcases hS.relaxed s2 ta el h c hle w d hstep with
      ⟨x, hx, hxdest, hxacc⟩ | hr
    · by_cases hxe : x = e
      · rw [hxe] at hxdest hxacc
        have hw : w = e.info.toStop := by rw [← hxdest, hdest]
        subst hw
        right
        exact ⟨pr, hpr, by omega⟩
      · exact Or.inl ⟨x, (List.mem_erase_of_ne hxe).mpr hx, hxdest, hxacc⟩
    · exact Or.inr hr
  · rcases hS.seedCov with ⟨x, hx, hxdest, hxacc⟩ | hr
    · by_cases hxe : x = e
      · rw [hxe] at hxdest hxacc
        have hw : S.startStop = e.info.toStop := by rw [← hxdest, hdest]
        right
        rw [hw]
        exact ⟨pr, hpr, by omega⟩
      · exact Or.inl ⟨x, (List.mem_erase_of_ne hxe).mpr hx, hxdest, hxacc⟩
    · exact Or.inr hr

/-- Settling a new stop and pushing its expansions preserves the person
invariant (the heart of the optimality argument). -/
lemma personInv_settle_expand {fd : Feed} {cfg : Config}
    (hfc : FeedConsistent fd) {S : Person} {e : Entry} (ctr0 : ℕ)
    (hS : PersonInv fd cfg S) (heS : e ∈ S.pq)
    (hmin : ∀ x ∈ S.pq, keyLtB x e = false)
    (hvis : S.visited.contains e.info.toStop = false) :
    PersonInv fd cfg { settlePerson S e with
      pq := (settlePerson S e).pq ++ mkEntries ctr0
        (expandSpecs fd cfg e.info.toStop e.info.arriveSec e.accum) } := by
  obtain ⟨hdest, harr1, harr2⟩ := hS.coher e heS
  have hta : e.info.arriveSec = cfg.t0 + e.accum := by omega
  have hreq := settle_reached_eq hS.vis_reached hvis
  have hnm : e.info.toStop ∉ S.visited := by simpa using hvis
  have hnone : S.reached.lookup e.info.toStop = none := by
    cases hl : S.reached.lookup e.info.toStop with
    | none => rfl
    | some pr =>
      exact absurd ((hS.vis_reached _).mpr (by rw [hl]; rfl)) hnm
  have herase : ∀ x, x ∈ S.pq.erase e → x ∈ S.pq :=
    fun x hx => (S.pq.erase_sublist e).subset hx
  have hpq : ({ settlePerson S e with
      pq := (settlePerson S e).pq ++ mkEntries ctr0
        (expandSpecs fd cfg e.info.toStop e.info.arriveSec e.accum)} :
      Person).pq = S.pq.erase e ++ mkEntries ctr0
        (expandSpecs fd cfg e.info.toStop e.info.arriveSec e.accum) := rfl
  have hNEW : ∀ x ∈ mkEntries ctr0
      (expandSpecs fd cfg e.info.toStop e.info.arriveSec e.accum),
      ∃ s ∈ expandSpecs fd cfg e.info.toStop e.info.arriveSec e.accum,
        x.accum = s.accum ∧ x.arr = s.arr ∧ x.dest = s.dest ∧
          x.info = s.info := fun x hx => (mem_mkEntries hx).2
  have hNEWacc : ∀ x ∈ mkEntries ctr0
      (expandSpecs fd cfg e.info.toStop e.info.arriveSec e.accum),
      e.accum ≤ x.accum := by
    intro x hx
    obtain ⟨s2, hs2, h1, _, _, _⟩ := hNEW x hx
    obtain ⟨d, hstep, hacc, _⟩ := expand_sound hs2
    have := stepRel_nonneg hfc hstep
    omega
  constructor
  · -- coher
    rw [hpq]
    intro x hx
    rcases List.mem_append.mp hx with hx | hx
    · exact hS.coher x (herase x hx)
    · obtain ⟨s2, hs2, h1, h2, h3, h4⟩ := hNEW x hx
      obtain ⟨hto, harrS, hdiff⟩ := expand_coherent hs2
      refine ⟨by rw [h3, h4, hto], by rw [h2, h4, harrS], by omega⟩
  · -- vis_reached
    exact settle_vis_reached hS.vis_reached hvis
  · -- mono
    rw [hpq]
    show ∀ s2 ta el, (settlePerson S e).reached.lookup s2 = some (ta, el) → _
    rw [hreq]
    intro s2 ta el h x hx
    by_cases hs2 : s2 = e.info.toStop
    · subst hs2
      rw [lookup_cons_self] at h
      injection h with h
      have hel : el = e.accum := (congrArg Prod.snd h).symm
      subst hel
      rcases List.mem_append.mp hx with hx | hx
      · exact keyLtB_accum_le (hmin x (herase x hx))
      · exact hNEWacc x hx
    · rw [lookup_cons_ne hs2] at h
      rcases List.mem_append.mp hx with hx | hx
      · exact hS.mono s2 ta el h x (herase x hx)
      · have h1 := hS.mono s2 ta el h e heS
        have h2 := hNEWacc x hx
        omega
  · -- reached_arr
    show ∀ s2 ta el, (settlePerson S e).reached.lookup s2 = some (ta, el) → _
    rw [hreq]
    intro s2 ta el h
    by_cases hs2 : s2 = e.info.toStop
    · subst hs2
      rw [lookup_cons_self] at h
      injection h with h
      have h1 : ta = e.info.arriveSec := (congrArg Prod.fst h).symm
      have h2 : el = e.accum := (congrArg Prod.snd h).symm
      omega
    · rw [lookup_cons_ne hs2] at h
      exact hS.reached_arr s2 ta el h
  · -- relaxed
    rw [hpq]
    show ∀ s2 ta el, (settlePerson S e).reached.lookup s2 = some (ta, el) → _
    rw [hreq]
    intro s2 ta el h c hle w d hstep
    by_cases hs2 : s2 = e.info.toStop
    · subst hs2
      rw [lookup_cons_self] at h
      injection h with h
      have hel : el = e.accum := (congrArg Prod.snd h).symm
      subst hel
      obtain ⟨d2, hstep2, hle2⟩ := stepRel_shift hle hstep
      rw [← hta] at hstep2
      obtain ⟨s3, hs3, hsdest, hsacc⟩ :=
        @expand_complete fd cfg _ _ e.accum _ _ hstep2
      obtain ⟨x, hxmem, hx1, hx2, hx3, hx4⟩ := mkEntries_mem_of_spec ctr0 hs3
      left
      refine ⟨x, List.mem_append_right _ hxmem, by rw [hx3, hsdest], ?_⟩
      rw [hx1, hsacc]
      omega
    · rw [lookup_cons_ne hs2] at h
      rcases hS.relaxed s2 ta el h c hle w d hstep with
        ⟨x, hx, hxdest, hxacc⟩ | ⟨pr2, hpr2, hle2⟩
      · by_cases hxe : x = e
        · rw [hxe] at hxdest hxacc
          have hw : w = e.info.toStop := by rw [← hxdest, hdest]
          subst hw
          right
          refine ⟨(e.info.arriveSec, e.accum), lookup_cons_self, by omega⟩
        · exact Or.inl ⟨x, List.mem_append_left _
            ((List.mem_erase_of_ne hxe).mpr hx), hxdest, hxacc⟩
      · right
        by_cases hw : w = e.info.toStop
        · rw [hw, hnone] at hpr2; cases hpr2
        · exact ⟨pr2, by rw [lookup_cons_ne hw]; exact hpr2, hle2⟩
  · -- seedCov
    rw [hpq]
    show (∃ e2 : Entry, e2 ∈ S.pq.erase e ++ mkEntries ctr0
        (expandSpecs fd cfg e.info.toStop e.info.arriveSec e.accum) ∧
        e2.dest = (settlePerson S e).startStop ∧ e2.accum ≤ 0) ∨
      (∃ p2 : ℤ × ℤ, (settlePerson S e).reached.lookup
        (settlePerson S e).startStop = some p2 ∧ p2.2 ≤ 0)
    rw [hreq]
    rcases hS.seedCov with ⟨x, hx, hxdest, hxacc⟩ | ⟨pr, hpr, hle⟩
    · by_cases hxe : x = e
      · rw [hxe] at hxdest hxacc
        have hw : S.startStop = e.info.toStop := by rw [← hxdest, hdest]
        right
        show ∃ p2 : ℤ × ℤ, List.lookup S.startStop _ = some p2 ∧ p2.2 ≤ 0
        rw [hw, lookup_cons_self]
        exact ⟨(e.info.arriveSec, e.accum), rfl, by omega⟩
      · exact Or.inl ⟨x, List.mem_append_left _
          ((List.mem_erase_of_ne hxe).mpr hx), hxdest, hxacc⟩
    · right
      by_cases hw : S.startStop = e.info.toStop
      · rw [hw, hnone] at hpr; cases hpr
      · show ∃ p2 : ℤ × ℤ, List.lookup S.startStop _ = some p2 ∧ p2.2 ≤ 0
        rw [lookup_cons_ne hw]
        exact ⟨pr, hpr, hle⟩
  · -- opt
    show ∀ s2 ta el, (settlePerson S e).reached.lookup s2 = some (ta, el) → _
    rw [hreq]
    intro s2 ta el h c hreach
    by_cases hs2 : s2 = e.info.toStop
    · subst hs2
      rw [lookup_cons_self] at h
      injection h with h
      have hel : el = e.accum := (congrArg Prod.snd h).symm
      subst hel
      rcases pathCover hfc hS _ c hreach with ⟨pr, hpr, _⟩ | ⟨x, hx, hxle⟩
      · rw [hnone] at hpr; cases hpr
      · have := keyLtB_accum_le (hmin x hx)
        omega
    · rw [lookup_cons_ne hs2] at h
      exact hS.opt s2 ta el h c hreach

/-- One continuing search step preserves the global invariant. -/
lemma gInv_step {fd : Feed} {cfg : Config} {g g' : GState}
    (hfc : FeedConsistent fd) (hG : GInv fd cfg g)
    (h : searchStep fd cfg g = .cont g') : GInv fd cfg g' := by
  obtain ⟨i, S, e, hpop, hcap, hbranch⟩ := searchStep_cont_cases h
  obtain ⟨hget, hfm, hglobal⟩ := popGlobalIdx_spec hpop
  have heS : e ∈ S.pq := (findMin_spec hfm).1
  have hSmem : S ∈ g.persons := List.get?_mem hget
  have hmin : ∀ x ∈ S.pq, keyLtB x e = false := hglobal i S hget
  rcases hbranch with ⟨hvis, rfl⟩ | ⟨hvis, hall, rfl⟩
  · intro P hP
    rcases mem_of_mem_set hP with hP | rfl
    · exact hG P hP
    · exact personInv_discard (hG S hSmem) heS hvis
  · rw [expandStep_eq]
    intro P hP
    rcases mem_of_mem_set hP with hP | rfl
    · exact hG P hP
    · exact personInv_settle_expand hfc g.ctr (hG S hSmem) heS hmin hvis

/-- Under feed consistency every reachable state satisfies the global
per-person invariant. -/
lemma reachable_gInv {fd : Feed} {cfg : Config} {g : GState}
    (hfc : FeedConsistent fd) (h : Reachable fd cfg g) : GInv fd cfg g := by
  induction h with
  | init => exact gInv_init fd cfg
  | next g g2 hre hstep ih => exact gInv_step hfc ih hstep

/-! Halt-on-meeting characterisation. -/

/-- After settling, the settled stop is always recorded. -/
lemma settle_lookup_self {S : Person} {e : Entry} :
    ((settlePerson S e).reached.lookup e.info.toStop).isSome = true := by
  show ((if (S.reached.lookup e.info.toStop).isSome then S.reached
    else (e.info.toStop, (e.info.arriveSec, e.accum)) :: S.reached).lookup
      e.info.toStop).isSome = true
  by_cases h : (S.reached.lookup e.info.toStop).isSome = true
  · rw [if_pos h]; exact h
  · simp only [Bool.not_eq_true] at h
    rw [if_neg (by simp [h])]
    rw [lookup_cons_self]
    rfl

lemma searchStep_ok_cases {fd : Feed} {cfg : Config} {g : GState}
    {p : String} {ps2 : List Person} :
    searchStep fd cfg g = .halt (.ok p ps2) ↔
      ∃ i S e, popGlobalIdx g.persons = some (i, S, e) ∧
        ¬ cfg.maxTripTimeS < e.accum ∧
        S.visited.contains e.info.toStop = false ∧
        (g.persons.set i (settlePerson S e)).all
          (fun P => (P.reached.lookup e.info.toStop).isSome) = true ∧
        p = e.info.toStop ∧ ps2 = g.persons.set i (settlePerson S e) := by
  constructor
  · intro h
    unfold searchStep at h
    split at h
    next => cases h
    next i S e hpop =>
      split at h
      next => cases h
      next hcap =>
        split at h
        next hvis => cases h
        next hvis =>
          split at h
          next hall =>
            cases h
            exact ⟨i, S, e, hpop, hcap, by simpa using hvis, hall, rfl, rfl⟩
          next hall => cases h
  · rintro ⟨i, S, e, hpop, hcap, hvis, hall, rfl, rfl⟩
    unfold searchStep
    simp only [hpop]
    rw [if_neg hcap]
    rw [if_neg (by simp only [hvis]; exact Bool.false_ne_true)]
    rw [if_pos hall]

/-- The meeting test over the updated person list is equivalent to the
pre-state condition "every other person already recorded the stop". -/
lemma all_set_enum_bridge {g : GState} {i : ℕ} {S : Person} {e : Entry}
    (hget : g.persons.get? i = some S) :
    ((g.persons.set i (settlePerson S e)).all
      (fun P => (P.reached.lookup e.info.toStop).isSome) = true) ↔
    (g.persons.enum.all (fun q => q.1 == i ||
      (q.2.reached.lookup e.info.toStop).isSome) = true) := by
  have hilen : i < g.persons.length := by
    rcases List.get?_eq_some.mp hget with ⟨hlt, _⟩
    exact hlt
  constructor
  · intro h
    rw [List.all_eq_true] at h ⊢
    rintro ⟨j, Q⟩ hq
    have hjQ : g.persons.get? j = some Q := by
      have h2 := List.mk_mem_enum_iff_getElem?.mp hq
      simpa [List.get?_eq_getElem?] using h2
    by_cases hij : j = i
    · subst hij
      simp
    · have hQ2 : (g.persons.set i (settlePerson S e)).get? j = some Q := by
        rw [get?_set_ne _ i j _ (fun hh => hij hh.symm)]
        exact hjQ
      have hmem : Q ∈ g.persons.set i (settlePerson S e) := List.get?_mem hQ2
      have h3 := h Q hmem
      simp only [Bool.or_eq_true, beq_iff_eq]
      exact Or.inr h3
  · intro h
    rw [List.all_eq_true] at h ⊢
    intro Q hQ
    obtain ⟨j, hjQ⟩ := List.mem_iff_get?.mp hQ
    by_cases hij : j = i
    · subst hij
      rw [get?_set_self _ _ _ (by simpa using hilen)] at hjQ
      injection hjQ with hjQ
      rw [← hjQ]
      exact settle_lookup_self
    · rw [get?_set_ne _ i j _ (fun hh => hij hh.symm)] at hjQ
      have hq : (j, Q) ∈ g.persons.enum := by
        apply List.mk_mem_enum_iff_getElem?.mpr
        simpa [List.get?_eq_getElem?] using hjQ
      have h3 := h (j, Q) hq
      simp only [Bool.or_eq_true, beq_iff_eq] at h3
      rcases h3 with h3 | h3
      · exact absurd h3 hij
      · exact h3

/-- A nonempty arrivals list whenever someone recorded the stop. -/
lemma arrivalsAt_ne_nil {ps : List Person} {p : String} {Q : Person}
    (hQ : Q ∈ ps) (h : (Q.reached.lookup p).isSome = true) :
    arrivalsAt ps p ≠ [] := by
  obtain ⟨pr, hpr⟩ := Option.isSome_iff_exists.mp h
  have : pr.1 ∈ arrivalsAt ps p := by
    unfold arrivalsAt
    rw [List.mem_filterMap]
    exact ⟨Q, hQ, by rw [hpr]; rfl⟩
  exact List.ne_nil_of_mem this

lemma elapsedAt_ne_nil {ps : List Person} {p : String} {Q : Person}
    (hQ : Q ∈ ps) (h : (Q.reached.lookup p).isSome = true) :
    elapsedAt ps p ≠ [] := by
  obtain ⟨pr, hpr⟩ := Option.isSome_iff_exists.mp h
  have : pr.2 ∈ elapsedAt ps p := by
    unfold elapsedAt
    rw [List.mem_filterMap]
    exact ⟨Q, hQ, by rw [hpr]; rfl⟩
  exact List.ne_nil_of_mem this

/-- Specification of `modalFirst`: a most frequent element, earliest
first occurrence winning. -/
lemma modalFirst_spec :
    ∀ (l : List String) (v : String), modalFirst l = some v →
      v ∈ l ∧ ∀ x ∈ l, l.count x ≤ l.count v := by
  intro l
  have hfold : ∀ (rest : List String) (acc : Option String) (v : String),
      rest.foldl (fun best w =>
        match best with
        | none => some w
        | some b => if l.count b < l.count w then some w else best) acc =
          some v →
      (acc = some v ∨ v ∈ rest) ∧
      (∀ x ∈ rest, l.count x ≤ l.count v) ∧
      (∀ b, acc = some b → l.count b ≤ l.count v) := by
    intro rest
    induction rest with
    | nil =>
      intro acc v h
      simp only [List.foldl_nil] at h
      refine ⟨Or.inl h, by simp, ?_⟩
      intro b hb
      rw [h] at hb
      cases hb
      exact le_refl _
    | cons w rest2 ih =>
      intro acc v h
      simp only [List.foldl_cons] at h
      obtain ⟨hmem, hall, hacc⟩ := ih _ v h
      have hwv : l.count w ≤ l.count v := by
        cases acc with
        | none => exact hacc w rfl
        | some b =>
          by_cases hc : l.count b < l.count w
          · exact hacc w (by simp [hc])
          · have hbv := hacc b (by simp [hc])
            omega
      constructor
      · cases acc with
        | none =>
          rcases hmem with hmem | hmem
          · cases hmem; exact Or.inr (List.mem_cons_self _ _)
          · exact Or.inr (List.mem_cons_of_mem _ hmem)
        | some b =>
          by_cases hc : l.count b < l.count w
          · simp only [hc, if_true] at hmem
            rcases hmem with hmem | hmem
            · cases hmem; exact Or.inr (List.mem_cons_self _ _)
            · exact Or.inr (List.mem_cons_of_mem _ hmem)
          · simp only [hc, if_false] at hmem
            rcases hmem with hmem | hmem
            · exact Or.inl hmem
            · exact Or.inr (List.mem_cons_of_mem _ hmem)
      · refine ⟨?_, ?_⟩
        · intro x hx
          rcases List.mem_cons.mp hx with hx | hx
          · subst hx; exact hwv
          · exact hall x hx
        · intro b hb
          cases acc with
          | none => cases hb
          | some b0 =>
            cases hb
            by_cases hc : l.count b < l.count w
            · have := hacc w (by simp [hc])
              omega
            · exact hacc b (by simp [hc])
  intro v h
  obtain ⟨hmem, hall, _⟩ := hfold l none v h
  rcases hmem with hmem | hmem
  · cases hmem
  · exact ⟨hmem, hall⟩

lemma modalFirst_isSome {l : List String} (h : l ≠ []) :
    (modalFirst l).isSome := by
  have hfold : ∀ (rest : List String) (acc : Option String), acc.isSome →
      (rest.foldl (fun best w =>
        match best with
        | none => some w
        | some b => if l.count b < l.count w then some w else best)
          acc).isSome := by
    intro rest
    induction rest with
    | nil =>
      intro acc ha
      simpa using ha
    | cons w rest2 ih =>
      intro acc ha
      simp only [List.foldl_cons]
      apply ih
      cases acc with
      | none => cases ha
      | some b =>
        by_cases hc : l.count b < l.count w
        · simp [hc]
        · simp [hc]
  cases l with
  | nil => exact absurd rfl h
  | cons x rest => exact hfold rest (some x) rfl

/-! The ten claims. -/

/-- C1: for every person and every platform recorded in its
`reached_stop_first` map, the recorded elapsed value is at most the
elapsed cost of any path to that platform the expansion rules can
generate from the person's seed (per-person shortest-path optimality in
accumulated elapsed time, given same-trip time consistency of the
feed). -/
theorem c1_settled_elapsed_optimal (fd : Feed) (cfg : Config) (g : GState)
    (hfc : FeedConsistent fd) (hre : Reachable fd cfg g) :
    ∀ P ∈ g.persons, ∀ p ta el, P.reached.lookup p = some (ta, el) →
      ∀ c, Reaches fd cfg P.startStop p c → el ≤ c :=
  fun P hP p ta el hlk c hr => (reachable_gInv hfc hre P hP).opt p ta el hlk c hr

/-- C3 counterexample: with `MAX_TRIP_TIME_S = 0` the loop does not
terminate immediately with CAP — two persons seeded on one platform meet
at it with status OK, because seed entries have accumulated elapsed 0 and
the cap test is strict. -/
theorem c3_counterexample :
    cfgA.maxTripTimeS = 0 ∧
      outStopOf (runSearch fdA cfgA 5 (initState fdA cfgA)) = some "X" ∧
      outIsCap (runSearch fdA cfgA 5 (initState fdA cfgA)) = false :=
  ⟨rfl, by decide, by decide⟩

/-- C3 (amended): whenever the global pop yields an entry whose
accumulated elapsed strictly exceeds `MAX_TRIP_TIME_S`, the step halts
with CAP naming the owning person; the popped entry is the key-minimal
entry over all non-empty person frontiers.  (The claim's corollary that
`MAX_TRIP_TIME_S = 0` caps immediately fails: elapsed-0 seed entries are
not strictly above the cap, see the counterexample.) -/
theorem c3_cap_on_min_excess (fd : Feed) (cfg : Config) (g : GState)
    (i : ℕ) (S : Person) (e : Entry)
    (hpop : popGlobalIdx g.persons = some (i, S, e))
    (hcap : cfg.maxTripTimeS < e.accum) :
    searchStep fd cfg g = .halt (.cap S.label) ∧
      findMin S.pq = some e ∧
      ∀ j Q, g.persons.get? j = some Q → ∀ x ∈ Q.pq, keyLtB x e = false := by
  obtain ⟨hget, hfm, hmin⟩ := popGlobalIdx_spec hpop
  refine ⟨?_, hfm, hmin⟩
  unfold searchStep
  simp only [hpop]
  rw [if_pos hcap]

theorem c3_witness :
    searchStep fdR cfgR0 (stepN fdR cfgR0 2 (initState fdR cfgR0)) =
      .halt (.cap "A") := by
  cases hp : popGlobalIdx (stepN fdR cfgR0 2 (initState fdR cfgR0)).persons with
  | none => exact absurd hp (by decide)
  | some tri =>
    have hmap : (popGlobalIdx
        (stepN fdR cfgR0 2 (initState fdR cfgR0)).persons).map
        (fun x => (x.2.2.accum, x.2.1.label)) = some (900, "A") := by decide
    rw [hp] at hmap
    have hmap2 : (tri.2.2.accum, tri.2.1.label) = ((900 : ℤ), "A") :=
      Option.some.inj hmap
    have hacc : tri.2.2.accum = 900 := congrArg Prod.fst hmap2
    have hlab : tri.2.1.label = "A" := congrArg Prod.snd hmap2
    have h := (c3_cap_on_min_excess fdR cfgR0 _ tri.1 tri.2.1 tri.2.2
      (by rw [hp]) (by rw [hacc]; decide)).1
    rw [hlab] at h
    exact h

/-- C4 counterexample: `best_name` pools the `stop_desc` and `stop_name`
columns before taking the most frequent value, rather than trying the
descriptions first and only then the names — on `gC4` the lone
description `X` loses to the name `Y` appearing twice, while the claimed
sequential reading yields `X`. -/
theorem c4_counterexample :
    bestName gC4 = "Y" ∧ claimedBestName gC4 = "X" :=
  ⟨by decide, by decide⟩

/-- C4 (amended): the station display name is the most frequent value of
the pooled stripped `stop_desc`-then-`stop_name` candidates, earliest
first occurrence winning ties; when no candidate exists it falls back to
the first child's `stop_id`. -/
theorem c4_pooled_modal_name (g : List StopRow) :
    (poolCands g = [] ∧ bestName g = (g.map (fun r => r.stop_id)).headD "") ∨
    (bestName g ∈ poolCands g ∧
      ∀ v ∈ poolCands g,
        (poolCands g).count v ≤ (poolCands g).count (bestName g)) := by
  have hb0 : bestName g = (match modalFirst (poolCands g) with
      | some w => w
      | none => (g.map (fun r => r.stop_id)).headD "") := rfl
  by_cases h : poolCands g = []
  · refine Or.inl ⟨h, ?_⟩
    rw [hb0, h]
    rfl
  · have hs := modalFirst_isSome h
    obtain ⟨v, hv⟩ := Option.isSome_iff_exists.mp hs
    obtain ⟨hmem, hcnt⟩ := modalFirst_spec _ v hv
    have hb : bestName g = v := by rw [hb0, hv]
    rw [hb]
    exact Or.inr ⟨hmem, hcnt⟩

/-- C5 counterexample: the nearby query has no radius filter — a
candidate 100 m away is emitted for a 1 m radius.  (The caller filters by
radius afterwards; the emitted distance itself can exceed `r`.) -/
theorem c5_counterexample :
    ("Q", (100 : ℚ)) ∈ nearby fdC5 "P" 1 ∧ ¬ ((100 : ℚ) ≤ (1 : ℚ)) :=
  ⟨by decide, by decide⟩

/-- C5 (amended): every emitted pair has a deduplicated candidate that is
not the query platform itself, carrying the true distance to it; the
radius bound holds not for the raw query but for every geodesic walk
candidate actually used by the expander. -/
theorem c5_nearby_guarantees (fd : Feed) (p : String) (r : ℚ) :
    ((nearby fd p r).map Prod.fst).Nodup ∧
    (∀ cd ∈ nearby fd p r, cd.1 ≠ p ∧ cd.2 = fd.dist p cd.1) ∧
    (∀ cfg : Config, ∀ t a : ℤ, ∀ s ∈ geoSpecs fd cfg p t a,
      ∀ src f toS w dp ar dm, s.info = .walk src f toS w dp ar dm →
        ¬ maxWalkRadius cfg < fd.dist p toS) := by
  obtain ⟨hnd, hself, hdist⟩ := nearby_props fd p r
  refine ⟨hnd, fun cd h => ⟨hself cd h, hdist cd h⟩, ?_⟩
  intro cfg t a s hs src f toS w dp ar dm hinfo
  obtain ⟨c, d, hcd, hrad, _, _, hseq⟩ := mem_geoSpecs.mp hs
  subst hseq
  have hinfo2 : Act.walk .geo p c (geoDur cfg d) t (t + geoDur cfg d)
      (some (roundQ d)) = .walk src f toS w dp ar dm := hinfo
  injection hinfo2 with h1 h2 h3 h4 h5 h6 h7
  rw [← h3]
  obtain ⟨hnd2, hself2, hdist2⟩ := nearby_props fd p (maxWalkRadius cfg)
  have hd2 : d = fd.dist p c := hdist2 (c, d) hcd
  rw [← hd2]
  exact hrad

theorem c5_witness : ((nearby fdC5 "P" 1).map Prod.fst).Nodup :=
  (c5_nearby_guarantees fdC5 "P" 1).1

/-- C6: for every ordered pair ingested as an explicit pathway or
transfer edge, no GEO walk over that pair is ever pushed onto any
frontier in any reachable state. -/
theorem c6_geo_suppressed_on_explicit (fd : Feed) (cfg : Config)
    (g : GState) (hre : Reachable fd cfg g) (u v : String)
    (hex : explicitRowB fd u v = true) : logNoGeo g u v = true := by
  have hL := reachable_logInv hre
  unfold logNoGeo
  rw [List.all_eq_true]
  intro e he
  cases hgeo : isGeoTo e u v with
  | false => rfl
  | true =>
    exfalso
    unfold isGeoTo at hgeo
    split at hgeo
    next f t w dp ar dm heq =>
      simp only [Bool.and_eq_true, beq_iff_eq] at hgeo
      obtain ⟨hf, ht⟩ := hgeo
      subst hf
      subst ht
      have hw := (hL.walkinfo e he .geo f t w dp ar dm heq).2 rfl
      have hni : (f, t) ∉ providedPairs fd := by simpa using hw.1
      exact hni (providedPairs_iff.mpr hex)
    next heq => exact Bool.noConfusion hgeo

theorem c6_witness : logNoGeo (initState fdW cfgW) "X" "Y" = true :=
  c6_geo_suppressed_on_explicit fdW cfgW _ Reachable.init "X" "Y" (by decide)

/-- C7: every ingested pathway/transfer walk edge has duration at least
30 s, and every walk action ever pushed in any reachable state has
duration at least 30 s, a GEO walk's duration being exactly
`max(30, ceil(distance / walk_speed))`. -/
theorem c7_walk_duration_floor (fd : Feed) (cfg : Config) (g : GState)
    (hre : Reachable fd cfg g) :
    (∀ we ∈ walkEdgesAll fd, 30 ≤ we.dur) ∧
      ∀ e ∈ g.log, walkDurOkB fd cfg e = true := by
  have hL := reachable_logInv hre
  refine ⟨fun we hwe => walkEdgesAll_dur hwe, ?_⟩
  intro e he
  cases hinfo : e.info with
  | start s t a => simp only [walkDurOkB, hinfo]
  | ride f t tid w rd dep arr => simp only [walkDurOkB, hinfo]
  | walk src f t w dp ar dm =>
    obtain ⟨h30, hgeo⟩ := hL.walkinfo e he src f t w dp ar dm hinfo
    simp only [walkDurOkB, hinfo]
    cases src with
    | geo =>
      rw [decide_eq_true h30, (hgeo rfl).2]
      simp
    | pathways =>
      rw [decide_eq_true h30]
      simp
    | transfers =>
      rw [decide_eq_true h30]
      simp

theorem c7_witness : (30 : ℤ) ≤ 120 :=
  (c7_walk_duration_floor fdW cfgW _ Reachable.init).1
    ⟨"X", "Y", 120, .pathways⟩ (by decide)

/-- C8: every ride action ever pushed is justified by a boarding row
with a parseable departure and a same-trip later-sequence row with a
parseable arrival, and ride generation only pairs a parseable-departure
boarding row with parseable-arrival downstream rows — rows with missing
or unparseable times are silently excluded, never used as boarding or
terminus. -/
theorem c8_rides_from_parseable_rows (fd : Feed) (cfg : Config)
    (g : GState) (hre : Reachable fd cfg g) :
    (∀ e ∈ g.log, rideJustifiedB fd e = true) ∧
    (∀ cur : String, ∀ t a : ℤ, ∀ s ∈ rideSpecs fd cur t a,
      ∀ f toS tid w rd dep arr, s.info = .ride f toS tid w rd dep arr →
        ∃ r1 r2, r1 ∈ fd.stopTimes ∧ r1.stop_id = cur ∧
          depSec r1 = some dep ∧ r2 ∈ fd.stopTimes ∧
          r2.trip_id = r1.trip_id ∧ r1.stop_sequence < r2.stop_sequence ∧
          r2.stop_id = toS ∧ arrSec r2 = some arr) := by
  have hL := reachable_logInv hre
  constructor
  · intro e he
    unfold rideJustifiedB
    cases hinfo : e.info with
    | start s t a => rfl
    | walk src f t w dp ar dm => rfl
    | ride f t tid w rd dep arr =>
      obtain ⟨r1, r2, hm1, hs1, htid, hdep, hm2, htid2, hseq, hs2, harr⟩ :=
        hL.rideinfo e he f t tid w rd dep arr hinfo
      simp only [List.any_eq_true, Bool.and_eq_true, beq_iff_eq,
        decide_eq_true_eq]
      exact ⟨r1, hm1, ⟨⟨⟨hs1, htid⟩, hdep⟩, r2, hm2, ⟨⟨htid2, hseq⟩, hs2⟩,
        harr⟩⟩
  · intro cur t a s hs f toS tid w rd dep arr hinfo
    obtain ⟨r1, dep2, r2, arr2, hm1, hs1, hdep2, htle, hm2, htr, hlt, harr2,
      hseq⟩ := mem_rideSpecs.mp hs
    subst hseq
    have hinfo2 : Act.ride cur r2.stop_id r1.trip_id (dep2 - t)
        (arr2 - dep2) dep2 arr2 = .ride f toS tid w rd dep arr := hinfo
    injection hinfo2 with h1 h2 h3 h4 h5 h6 h7
    refine ⟨r1, r2, hm1, hs1, ?_, hm2, htr, hlt, h2, ?_⟩
    · rw [← h6]
      exact hdep2
    · rw [← h7]
      exact harr2

theorem c8_witness :
    rideJustifiedB fdR
      ((initState fdR cfgR).log.getD 1 ⟨0, 0, "", 0, .start "" 0 0⟩) =
        true :=
  (c8_rides_from_parseable_rows fdR cfgR _ Reachable.init).1 _ (by decide)

/-- C9 counterexample: in no reachable state do two frontier entries of
any two persons share an accumulated elapsed while differing in absolute
arrival — every pushed entry satisfies `arrival = t0 + elapsed` with the
one global `t0`, so equal elapsed forces equal arrival. -/
theorem c9_counterexample :
    ¬ ∃ (fd : Feed) (cfg : Config) (g : GState) (Pi Pj : Person)
        (e1 e2 : Entry), Reachable fd cfg g ∧ Pi ∈ g.persons ∧
        Pj ∈ g.persons ∧ e1 ∈ Pi.pq ∧ e2 ∈ Pj.pq ∧
        e1.accum = e2.accum ∧ e1.arr ≠ e2.arr := by
  rintro ⟨fd, cfg, g, Pi, Pj, e1, e2, hre, hi, hj, h1, h2, hacc, harr⟩
  have hL := reachable_logInv hre
  have f1 := (hL.arr e1 (hL.pqlog Pi hi e1 h1)).1
  have f2 := (hL.arr e2 (hL.pqlog Pj hj e2 h2)).1
  omega

/-- C9 (amended): every entry ever pushed, and hence every frontier
entry of every person, has absolute arrival exactly `t0` plus its
accumulated elapsed: the two orderings coincide on reachable states and
persons with equal elapsed are at equal absolute times. -/
theorem c9_arrival_locked_to_elapsed (fd : Feed) (cfg : Config)
    (g : GState) (hre : Reachable fd cfg g) :
    (∀ e ∈ g.log, e.arr = cfg.t0 + e.accum) ∧
      ∀ P ∈ g.persons, ∀ e ∈ P.pq, e.arr = cfg.t0 + e.accum := by
  have hL := reachable_logInv hre
  exact ⟨fun e he => (hL.arr e he).1,
    fun P hP e he => (hL.arr e (hL.pqlog P hP e he)).1⟩

theorem c9_witness :
    ((initState fdA cfgA).log.getD 0 ⟨0, 0, "", 0, .start "" 0 0⟩).arr =
      cfgA.t0 +
        ((initState fdA cfgA).log.getD 0 ⟨0, 0, "", 0, .start "" 0 0⟩).accum :=
  (c9_arrival_locked_to_elapsed fdA cfgA _ Reachable.init).1 _ (by decide)

/-- C10: in every reachable state the pushed counters are exactly the
strictly increasing stream `1, …, ctr`, distinct entries are already
distinguished by their comparison 4-tuple (so the payload in the fifth
position never decides a comparison), and the global pop returns a
frontier entry that no frontier entry anywhere strictly precedes in the
key order. -/
theorem c10_counters_and_global_min (fd : Feed) (cfg : Config)
    (g : GState) (hre : Reachable fd cfg g) :
    g.log.map Entry.ctr = List.range' 1 g.ctr ∧
    ((allPq g).map Entry.ctr).Nodup ∧
    (∀ e1 ∈ g.log, ∀ e2 ∈ g.log, key4 e1 = key4 e2 → e1 = e2) ∧
    (∀ i S e, popGlobalIdx g.persons = some (i, S, e) →
      e ∈ allPq g ∧ ∀ x ∈ allPq g, keyLtB x e = false) := by
  have hL := reachable_logInv hre
  refine ⟨hL.logctr, hL.pqctrNodup, ?_, ?_⟩
  · intro e1 h1 e2 h2 hk
    have hnd : (g.log.map Entry.ctr).Nodup := by
      rw [hL.logctr]
      exact List.nodup_range' _ _
    have hctr : Entry.ctr e1 = Entry.ctr e2 :=
      congrArg (fun q => q.2.2.2) hk
    exact List.inj_on_of_nodup_map hnd h1 h2 hctr
  · intro i S e hpop
    obtain ⟨hget, hfm, hmin⟩ := popGlobalIdx_spec hpop
    constructor
    · show e ∈ g.persons.flatMap (fun P => P.pq)
      exact List.mem_flatMap.mpr ⟨S, List.get?_mem hget, (findMin_spec hfm).1⟩
    · intro x hx
      obtain ⟨Q, hQ, hxQ⟩ := List.mem_flatMap.mp hx
      obtain ⟨j, hj⟩ := List.mem_iff_get?.mp hQ
      exact hmin j Q hj x hxQ

theorem c10_witness :
    (initState fdR cfgR).log.map Entry.ctr =
      List.range' 1 (initState fdR cfgR).ctr :=
  (c10_counters_and_global_min fdR cfgR _ Reachable.init).1

/-- C2: the step halts with `OK(p)` exactly when the global pop settles
`p` uncapped and unvisited for its owner and every other person already
recorded `p`; on such a halt every reported person has recorded `p`, the
reported meeting wall-clock time is the maximum recorded absolute
arrival at `p`, and the fairness spread is the maximum minus the minimum
recorded elapsed at `p`. -/
theorem c2_ok_halt_and_report (fd : Feed) (cfg : Config) (g : GState)
    (p : String) :
    (okStopOf (searchStep fd cfg g) = some p ↔ okCondPre cfg g p = true) ∧
    (∀ ps2, searchStep fd cfg g = .halt (.ok p ps2) →
      ps2.all (fun P => (P.reached.lookup p).isSome) = true ∧
      (∃ m, meetTimeOf ps2 p = some m ∧ m ∈ arrivalsAt ps2 p ∧
        ∀ x ∈ arrivalsAt ps2 p, x ≤ m) ∧
      (∃ mx mn, spreadOf ps2 p = some (mx - mn) ∧
        mx ∈ elapsedAt ps2 p ∧ mn ∈ elapsedAt ps2 p ∧
        ∀ x ∈ elapsedAt ps2 p, mn ≤ x ∧ x ≤ mx)) := by
  constructor
  · constructor
    · intro h
      have hok : ∃ ps2, searchStep fd cfg g = .halt (.ok p ps2) := by
        cases hst : searchStep fd cfg g with
        | cont g2 =>
          rw [hst] at h
          cases h
        | halt o =>
          cases o with
          | ok q ps2 =>
            rw [hst] at h
            have hqp : some q = some p := h
            cases hqp
            exact ⟨ps2, rfl⟩
          | cap s =>
            rw [hst] at h
            cases h
          | drained =>
            rw [hst] at h
            cases h
      obtain ⟨ps2, hst⟩ := hok
      obtain ⟨i, S, e, hpop, hcap, hvis, hall, hp, hps2⟩ :=
        searchStep_ok_cases.mp hst
      have hget := (popGlobalIdx_spec hpop).1
      have hbridge := (all_set_enum_bridge hget).mp hall
      subst hp
      have hnv : e.info.toStop ∉ S.visited := by simpa using hvis
      simp only [okCondPre, hpop]
      simp [hnv, hvis, decide_eq_false hcap, hbridge]
    · intro h
      cases hpop : popGlobalIdx g.persons with
      | none =>
        simp only [okCondPre, hpop] at h
        exact Bool.noConfusion h
      | some tri =>
        obtain ⟨i, S, e⟩ := tri
        simp only [okCondPre, hpop, Bool.and_eq_true, beq_iff_eq,
          Bool.not_eq_true'] at h
        obtain ⟨⟨⟨htop, hcapb⟩, hvisb⟩, henum⟩ := h
        rw [← htop] at henum hvisb
        have hget := (popGlobalIdx_spec hpop).1
        have hall := (all_set_enum_bridge hget).mpr henum
        have hst : searchStep fd cfg g =
            .halt (.ok e.info.toStop (g.persons.set i (settlePerson S e))) :=
          searchStep_ok_cases.mpr
            ⟨i, S, e, hpop, of_decide_eq_false hcapb, hvisb, hall, rfl, rfl⟩
        rw [hst]
        show some e.info.toStop = some p
        rw [htop]
  · intro ps2 hst
    obtain ⟨i, S, e, hpop, hcap, hvis, hall, hp, hps2⟩ :=
      searchStep_ok_cases.mp hst
    subst hp
    have hallp : ps2.all
        (fun P => (P.reached.lookup e.info.toStop).isSome) = true := by
      rw [hps2]
      exact hall
    have hget := (popGlobalIdx_spec hpop).1
    have hilen : i < g.persons.length := (List.get?_eq_some.mp hget).1
    have hQmem : settlePerson S e ∈ ps2 := by
      rw [hps2]
      exact List.get?_mem (get?_set_self _ _ _ hilen)
    have hQsome : ((settlePerson S e).reached.lookup
        e.info.toStop).isSome = true := settle_lookup_self
    refine ⟨hallp, ?_, ?_⟩
    · have hne := arrivalsAt_ne_nil hQmem hQsome
      cases harr : arrivalsAt ps2 e.info.toStop with
      | nil => exact absurd harr hne
      | cons x xs =>
        have hmax := maxListZ_spec (x :: xs) (xs.foldl max x) rfl
        refine ⟨xs.foldl max x, ?_, hmax.1, hmax.2⟩
        unfold meetTimeOf
        rw [harr]
        rfl
    · have hneE := elapsedAt_ne_nil hQmem hQsome
      cases hel : elapsedAt ps2 e.info.toStop with
      | nil => exact absurd hel hneE
      | cons y ys =>
        have hmax := maxListZ_spec (y :: ys) (ys.foldl max y) rfl
        have hmin := minListZ_spec (y :: ys) (ys.foldl min y) rfl
        refine ⟨ys.foldl max y, ys.foldl min y, ?_, hmax.1, hmin.1, ?_⟩
        · unfold spreadOf
          rw [hel]
          rfl
        · intro z hz
          exact ⟨hmin.2 z hz, hmax.2 z hz⟩

theorem c2_witness :
    okStopOf (searchStep fdR cfgR (stepN fdR cfgR 4 (initState fdR cfgR))) =
      some "C1" :=
  ((c2_ok_halt_and_report fdR cfgR
    (stepN fdR cfgR 4 (initState fdR cfgR)) "C1").1).mpr (by decide)

theorem c1_witness :
    (900 : ℤ) ≤ 0 + ((47100 - (cfgR.t0 + 0)) + (47700 - 47100)) := by
  have h0 : Reachable fdR cfgR (initState fdR cfgR) := Reachable.init
  have h1 := Reachable.next _ _ h0
    (show searchStep fdR cfgR (initState fdR cfgR) =
      .cont (stepN fdR cfgR 1 (initState fdR cfgR)) by decide)
  have h2 := Reachable.next _ _ h1
    (show searchStep fdR cfgR (stepN fdR cfgR 1 (initState fdR cfgR)) =
      .cont (stepN fdR cfgR 2 (initState fdR cfgR)) by decide)
  have h3 := Reachable.next _ _ h2
    (show searchStep fdR cfgR (stepN fdR cfgR 2 (initState fdR cfgR)) =
      .cont (stepN fdR cfgR 3 (initState fdR cfgR)) by decide)
  have hP : ((stepN fdR cfgR 3 (initState fdR cfgR)).persons.headD
      ⟨"", "", [], [], [], []⟩) ∈
        (stepN fdR cfgR 3 (initState fdR cfgR)).persons := by decide
  have hlk : ((stepN fdR cfgR 3 (initState fdR cfgR)).persons.headD
      ⟨"", "", [], [], [], []⟩).reached.lookup "C1" =
        some (47700, 900) := by decide
  have hs : ((stepN fdR cfgR 3 (initState fdR cfgR)).persons.headD
      ⟨"", "", [], [], [], []⟩).startStop = "N1" := by decide
  have hstep : StepRel fdR cfgR "N1" (cfgR.t0 + 0) "C1"
      ((47100 - (cfgR.t0 + 0)) + (47700 - 47100)) :=
    StepRel.ride "N1" (cfgR.t0 + 0)
      ⟨"T1", "N1", 1, some "13:05:00", some "13:05:00"⟩
      ⟨"T1", "C1", 2, some "13:15:00", some "13:15:00"⟩
      47100 47700 (by decide) rfl (by decide) (by decide) (by decide)
      rfl (by decide) (by decide)
  have hreach : Reaches fdR cfgR "N1" "C1"
      (0 + ((47100 - (cfgR.t0 + 0)) + (47700 - 47100))) :=
    Reaches.step _ _ _ _ Reaches.base hstep
  exact c1_settled_elapsed_optimal fdR cfgR _ (by decide) h3 _ hP "C1"
    47700 900 hlk _ (by rw [hs]; exact hreach)

end Midway